import Mathlib

/-!
Verification of the C-2DMatrix repository (`src/matrix.h`): a shallow
embedding of the matrix value type and its operations, followed by theorems
settling the specification claims.

Modelling conventions:
* `size_t` values are `Nat`; where the C code can wrap (the `matrix_len(m) - 1`
  subtraction, and the product `i * m->height` in the cycle-following step
  `next = (i * m->height) % size`), the wrap modulo `2^64` is made explicit.
* The C `int` temporary in `matrix__transpose_single_col_or_row` is modelled
  with an explicit truncating `size_t → int` conversion (gcc two's-complement
  behaviour, as in the repository's build script).
* Buffers (`double*`) are `List α` for a type `α` with `Inhabited`; reads are
  `List.getD`, writes are `List.set`.  Arithmetic claims instantiate `α := ℚ`,
  standing for exact (real-number) arithmetic of the `double` computations.
* Functions whose C source can fail an `assert` return `CRes`; `CRes.abort`
  is the assertion failure.  The two cycle-following transpose loops are
  step-indexed (fuel); the top-level `matrix_transpose` runs them with fuel
  `matrix_len m + 1`.  This fuel is shown sufficient whenever the `size_t`
  products of the cycle step cannot wrap; on wrap-prone shapes no fuel
  suffices (the source loops forever) and the fueled run returns `none`.
* `rand()` is modelled as an input stream `Nat → Nat` of values in
  `[0, RAND_MAX]`, consumed one value per cell in buffer order.
-/

/-- Result of a C computation that may abort via a failed `assert`. -/
inductive CRes (α : Type) where
  | ok : α → CRes α
  | abort : CRes α
deriving DecidableEq, Repr

/-- The `matrix` struct of `matrix.h`: `size_t height; size_t width;
`double* values;` with a non-NULL buffer (NULL-ness of `values` is modelled
separately for `matrix_del`, see `cmatrix`). -/
structure matrix (α : Type) where
  height : Nat
  width : Nat
  values : List α
deriving DecidableEq, Repr

/-- Number of values a `size_t` can hold (64-bit platform, as assumed by the
source's use of `uint64_t` words for one-bit-per-index tracking). -/
def USIZE : Nat := 2 ^ 64

/-- A matrix that can actually exist in a run of the program: the buffer
invariant `buffer.length == height * width` of the spec, together with the
fact that a buffer of that many doubles was allocatable (so the element
count fits in `size_t`). -/
def matrix_ok {α : Type} (m : matrix α) : Prop :=
  m.values.length = m.height * m.width ∧ m.height * m.width < USIZE

/-- `matrix_len`: `m->height * m->width` (the product of any existing
matrix fits in `size_t`, see `matrix_ok`). -/
def matrix_len {α : Type} (m : matrix α) : Nat :=
  m.height * m.width

/-- `size_t` subtraction of 1, wrapping modulo `2^64` (the computation
`matrix_len(m) - 1` in the two rectangular transpose paths): for `n` in
`[0, 2^64)` the value `(n + 2^64 - 1) mod 2^64` equals `n - 1` for positive
`n` and `SIZE_MAX = 2^64 - 1` for `n = 0`, which is how it is written
here. -/
def size_sub_one (n : Nat) : Nat :=
  if n = 0 then USIZE - 1 else n - 1

/-- Conversion `size_t → int` as performed by gcc on x86-64 (two's-complement
truncation to 32 bits); used by the `int temp` slip in
`matrix__transpose_single_col_or_row`. -/
def to_c_int (n : Nat) : Int :=
  if n % 2 ^ 32 < 2 ^ 31 then ((n % 2 ^ 32 : Nat) : Int)
  else ((n % 2 ^ 32 : Nat) : Int) - 2 ^ 32

/-- Conversion `int → size_t` (well-defined in C: reduction modulo `2^64`). -/
def of_c_int (i : Int) : Nat :=
  (i % (USIZE : Int)).toNat

/-- `matrix_get`: `m->values[row * m->width + col]`.  The C asserts
`row < height` and `col < width`; every modelled call site is in bounds under
the claims' hypotheses, so the read is modelled directly. -/
def matrix_get {α : Type} [Inhabited α] (m : matrix α) (row col : Nat) : α :=
  m.values.getD (row * m.width + col) default

/-- `matrix_set`: `m->values[row * m->width + col] = value` (same remark on
the bounds asserts as for `matrix_get`). -/
def matrix_set {α : Type} (m : matrix α) (row col : Nat) (value : α) : matrix α :=
  { m with values := m.values.set (row * m.width + col) value }

-- The raw C struct with a possibly-NULL `values` pointer, for the lifecycle
-- operation `matrix_del`.

/-- The `matrix` struct viewed as raw memory: `values` may be NULL (`none`).
All other modelled operations require (and the claims supply) a non-NULL
buffer, so they use `matrix` directly. -/
structure cmatrix (α : Type) where
  height : Nat
  width : Nat
  values : Option (List α)
deriving DecidableEq, Repr

/-- `matrix_del`: asserts `m && m->values`, frees the buffer, then sets
`m->values = NULL`.  Freeing is modelled by dropping the list; the assertion
failure on a NULL `values` is `CRes.abort` (the `free` is never reached). -/
def matrix_del {α : Type} (m : cmatrix α) : CRes (cmatrix α) :=
  match m.values with
  | none => CRes.abort
  | some _ => CRes.ok { m with values := none }

-- Uniform random fill.

/-- glibc's `RAND_MAX`. -/
def RAND_MAX : Nat := 2147483647

/-- `matrix_fill_uniform`: asserts `b > a`; then for each flat index `i` in
order draws `r = (double)rand() / (double)RAND_MAX` and stores
`a + r * (b - a)`.  The `rand()` stream is the argument `rs`; arithmetic is
exact (`ℚ`). -/
def matrix_fill_uniform (m : matrix ℚ) (a b : ℚ) (rs : Nat → Nat) : CRes (matrix ℚ) :=
  if a < b then
    CRes.ok { m with values :=
      (List.range (matrix_len m)).map (fun i => a + ((rs i : ℚ) / (RAND_MAX : ℚ)) * (b - a)) }
  else CRes.abort

/-- `matrix_new_uniform`: `matrix_new` (whose fresh buffer contents are the
unspecified `junk`) followed by `matrix_fill_uniform`. -/
def matrix_new_uniform (height width : Nat) (a b : ℚ) (rs : Nat → Nat)
    (junk : List ℚ) : CRes (matrix ℚ) :=
  matrix_fill_uniform { height := height, width := width, values := junk } a b rs

-- Elementwise addition and subtraction.

/-- `matrix_add`: asserts equal heights and widths, then
`a->values[i] += b->values[i]` for every flat index `i < matrix_len(a)`.
`b` is `const` and never written. -/
def matrix_add {α : Type} [Inhabited α] [Add α] (a b : matrix α) : CRes (matrix α) :=
  if a.height = b.height ∧ a.width = b.width then
    CRes.ok { a with values :=
      ((List.range (matrix_len a)).map
        (fun i => a.values.getD i default + b.values.getD i default)) }
  else CRes.abort

/-- `matrix_sub`: asserts equal heights and widths, then
`a->values[i] -= b->values[i]` for every flat index `i < matrix_len(a)`. -/
def matrix_sub {α : Type} [Inhabited α] [Sub α] (a b : matrix α) : CRes (matrix α) :=
  if a.height = b.height ∧ a.width = b.width then
    CRes.ok { a with values :=
      ((List.range (matrix_len a)).map
        (fun i => a.values.getD i default - b.values.getD i default)) }
  else CRes.abort

-- Matrix multiplication.

/-- The innermost loop of `matrix_matmul_into` for one output cell
`field = row * W + col` (`W` is `dest->width`): `dest->values[field] = 0.0;`
then `dest->values[field] += matrix_get(a, row, i) * matrix_get(b, i, col)`
for `i = 0 .. common_len - 1`, left to right (`common_len = a->width`). -/
def mm_cell_loop {α : Type} [Inhabited α] [Add α] [Mul α] [Zero α]
    (a b : matrix α) (W row col : Nat) (buf : List α) : List α :=
  (List.range a.width).foldl (fun bf i =>
      bf.set (row * W + col) (bf.getD (row * W + col) default +
        matrix_get a row i * matrix_get b i col))
    (buf.set (row * W + col) 0)

/-- The `for (col …)` loop of `matrix_matmul_into` over one row. -/
def mm_col_loop {α : Type} [Inhabited α] [Add α] [Mul α] [Zero α]
    (a b : matrix α) (W row ncols : Nat) (buf : List α) : List α :=
  (List.range ncols).foldl (fun buf2 col => mm_cell_loop a b W row col buf2) buf

/-- The `for (row …)` loop of `matrix_matmul_into`. -/
def mm_row_loop {α : Type} [Inhabited α] [Add α] [Mul α] [Zero α]
    (a b : matrix α) (W nrows ncols : Nat) (buf : List α) : List α :=
  (List.range nrows).foldl (fun buf row => mm_col_loop a b W row ncols buf) buf

/-- `matrix_matmul_into`: asserts `a->width == b->height`,
`dest->height == a->height`, `dest->width == b->width`; then runs the
row/column/accumulation loops `mm_row_loop` over `dest`'s buffer. -/
def matrix_matmul_into {α : Type} [Inhabited α] [Add α] [Mul α] [Zero α]
    (a b dest : matrix α) : CRes (matrix α) :=
  if a.width = b.height ∧ dest.height = a.height ∧ dest.width = b.width then
    CRes.ok { dest with values :=
      (mm_row_loop a b dest.width dest.height dest.width dest.values) }
  else CRes.abort

/-- The value the spec assigns to output cell `(row, col)`:
`Σ_{t=0}^{k-1} a[row][t] * b[t][col]` accumulated left-to-right over `t`
(`k = a.width`). -/
def matmul_cell {α : Type} [Inhabited α] [Add α] [Mul α] [Zero α]
    (a b : matrix α) (row col : Nat) : α :=
  (List.range a.width).foldl
    (fun acc t => acc + matrix_get a row t * matrix_get b t col) 0

/-- `matrix_matmul`: asserts `a->width == b->height`, allocates a fresh
`a->height × b->width` matrix (whose uninitialized contents are `junk`) and
delegates to `matrix_matmul_into`. -/
def matrix_matmul {α : Type} [Inhabited α] [Add α] [Mul α] [Zero α]
    (a b : matrix α) (junk : List α) : CRes (matrix α) :=
  if a.width = b.height then
    matrix_matmul_into a b { height := a.height, width := b.width, values := junk }
  else CRes.abort

-- Printing.

/-- `matrix_print`: for each row, `fprintf(sink, "%f ", matrix_get(m, row, col))`
for each column, then `fputc('\n', sink)`.  The byte sink is modelled as the
produced `List Char`; the `%f` fixed-point rendering of one `double` is the
abstract `fmt` argument. -/
def matrix_print {α : Type} [Inhabited α] (fmt : α → List Char) (m : matrix α) :
    List Char :=
  ((List.range m.height).map (fun row =>
    (((List.range m.width).map (fun col => fmt (matrix_get m row col) ++ [' '])).flatten)
      ++ ['\n'])).flatten

/-- Rendering of a list of printed values with one single space between
consecutive values, from the spec's words (`one row per line, columns
separated by a single space`). -/
def space_separated : List (List Char) → List Char
  | [] => []
  | [x] => x
  | x :: y :: t => x ++ [' '] ++ space_separated (y :: t)

-- Private transpose helpers of matrix.h: one-bit-per-index tracking.

/-- `matrix__set_bit`: `number | ((uint64_t)1 << idx)`.  Modelled on `Nat`;
all call sites have `idx < 64`, so no truncation occurs in C. -/
def matrix__set_bit (number idx : Nat) : Nat :=
  number ||| (1 <<< idx)

/-- `matrix__has_bit`: `(number & ((uint64_t)1 << idx)) != 0`. -/
def matrix__has_bit (number idx : Nat) : Bool :=
  (number &&& (1 <<< idx)) != 0

/-- `matrix__bitset_set`: sets bit `idx % 64` of word `idx / 64`. -/
def matrix__bitset_set (bitset : List Nat) (idx : Nat) : List Nat :=
  bitset.set (idx / 64) (bitset.getD (idx / 64) 0 ||| (1 <<< (idx % 64)))

/-- `matrix__bitset_has`: tests bit `idx % 64` of word `idx / 64`. -/
def matrix__bitset_has (bitset : List Nat) (idx : Nat) : Bool :=
  (bitset.getD (idx / 64) 0 &&& (1 <<< (idx % 64))) != 0

/-- The `uint64_t bitset[bitset_sz]` array of `matrix__transpose_rectangle`,
with its length `bitset_sz = (size / 64) + 1` carried in the type (the array
never changes length). -/
def wordvec (n : Nat) : Type :=
  { l : List Nat // l.length = n }

/-- `matrix__bitset_set` acting on the fixed-length array. -/
def wordvec_set {n : Nat} (b : wordvec n) (idx : Nat) : wordvec n :=
  ⟨matrix__bitset_set b.1 idx, by
    unfold matrix__bitset_set
    rw [List.length_set]
    exact b.2⟩

/-- `matrix__bitset_has` acting on the fixed-length array. -/
def wordvec_has {n : Nat} (b : wordvec n) (idx : Nat) : Bool :=
  matrix__bitset_has b.1 idx

-- The cycle-following loops shared by `matrix__transpose_rectangle` and
-- `matrix__transpose_small_rectangle` (matrix.h lines 454-472 and 494-512):
-- generic over the visited-bit store `β`, which is the inline `uint64_t`
-- word in the small path and the `uint64_t` array in the general path.
-- The loops are step-indexed; `none` means the fuel ran out.

/-- The inner `do { ... } while (i != cycle_begin)` loop: compute
`next = (i * m->height) % size` — the product `i * m->height` is a `size_t`
multiplication, so it wraps modulo `2^64` before the `% size` — then swap
`temp` with `m->values[next]`, mark `i` as swapped, move `i` to `next`, and
stop when `i` is back at the cycle start. -/
def transpose_inner {α β : Type} [Inhabited α] (bsSet : β → Nat → β)
    (Hv size : Nat) :
    Nat → List α → β → Nat → Nat → α → Option (List α × β)
  | 0, _, _, _, _, _ => none
  | fuel + 1, buf, bs, cycle_begin, i, temp =>
    let next := (i * Hv) % USIZE % size
    let swap_temp := buf.getD next default
    let buf2 := buf.set next temp
    let bs2 := bsSet bs i
    if next = cycle_begin then some (buf2, bs2)
    else transpose_inner bsSet Hv size fuel buf2 bs2 cycle_begin next swap_temp

/-- Structural core of `transpose_scan`: `rem` is the remaining iteration
count `size - i`, so `rem = 0` is exactly the exit condition `i ≥ size`. -/
def transpose_scan_go {β : Type} (bsHas : β → Nat → Bool) (bs : β) :
    Nat → Nat → Nat
  | 0, i => i
  | rem + 1, i => if bsHas bs i then transpose_scan_go bsHas bs rem (i + 1) else i

/-- The cycle-search loop `for (i = 1; i < size && has(bitset, i); ++i);`:
returns the first `i` ≥ the start value that is `≥ size` or unmarked. -/
def transpose_scan {β : Type} (bsHas : β → Nat → Bool) (size : Nat) (bs : β)
    (i : Nat) : Nat :=
  transpose_scan_go bsHas bs (size - i) i

/-- The outer `while (i < size)` loop: start a cycle at `i` with
`temp = m->values[i]`, resolve it with `transpose_inner`, then scan for the
next unresolved index. -/
def transpose_outer {α β : Type} [Inhabited α] (bsSet : β → Nat → β)
    (bsHas : β → Nat → Bool) (Hv size innerFuel : Nat) :
    Nat → List α → β → Nat → Option (List α × β)
  | 0, _, _, _ => none
  | fuel + 1, buf, bs, i =>
    if i < size then
      match transpose_inner bsSet Hv size innerFuel buf bs i i (buf.getD i default) with
      | none => none
      | some (buf2, bs2) =>
        transpose_outer bsSet bsHas Hv size innerFuel fuel buf2 bs2
          (transpose_scan bsHas size bs2 1)
    else some (buf, bs)

-- The four transpose paths.

/-- The zero-initialized (`memset`) `uint64_t bitset[bitset_sz]` array of
`matrix__transpose_rectangle`. -/
def rect_bitset_init (n : Nat) : wordvec n :=
  ⟨List.replicate n 0, by simp⟩

/-- `matrix__transpose_rectangle`: `size = matrix_len(m) - 1` (in `size_t`),
a zero-initialized `uint64_t` array of `(size / 64) + 1` words, then the
cycle-following loops starting at `i = 1`, then the height/width field
swap.  Fuel `matrix_len m + 1` is shown sufficient below. -/
def matrix__transpose_rectangle {α : Type} [Inhabited α] (m : matrix α) :
    Option (matrix α) :=
  let size := size_sub_one (matrix_len m)
  match transpose_outer wordvec_set wordvec_has m.height size
      (matrix_len m + 1) (matrix_len m + 1) m.values
      (rect_bitset_init (size / 64 + 1)) 1 with
  | none => none
  | some (buf, _) => some { height := m.width, width := m.height, values := buf }

/-- `matrix__transpose_small_rectangle`: `size = matrix_len(m) - 1` (in
`size_t`), `assert(size < 64)`, an inline `uint64_t` word with bits `0` and
`size` pre-set, then the same cycle-following loops and the field swap. -/
def matrix__transpose_small_rectangle {α : Type} [Inhabited α] (m : matrix α) :
    Option (CRes (matrix α)) :=
  let size := size_sub_one (matrix_len m)
  if size < 64 then
    let swapped_set : Nat := matrix__set_bit (matrix__set_bit 0 0) size
    match transpose_outer matrix__set_bit matrix__has_bit m.height size
        (matrix_len m + 1) (matrix_len m + 1) m.values swapped_set 1 with
    | none => none
    | some (buf, _) =>
      some (CRes.ok { height := m.width, width := m.height, values := buf })
  else some CRes.abort

/-- The inner loop of `matrix__transpose_square` for one row `i`: for
`j = i + 1 .. i + n` (`n` is the remaining count `m->height - (i+1)`),
`temp = matrix_get(m, i, j); matrix_set(m, i, j, matrix_get(m, j, i));
matrix_set(m, j, i, temp);` on the flat buffer (`W` is `m->width`). -/
def sq_swap_row {α : Type} [Inhabited α] (W i n : Nat) (buf : List α) :
    List α :=
  (List.range' (i + 1) n).foldl (fun buf2 j =>
    (buf2.set (i * W + j) (buf2.getD (j * W + i) default)).set
      (j * W + i) (buf2.getD (i * W + j) default)) buf

/-- The outer loop of `matrix__transpose_square`:
`for (i = 0; i < m->height - 1; ++i)` over `sq_swap_row`, where `hgt` is
`m->height` (for the inner bound `j < m->height`). -/
def sq_swap_all {α : Type} [Inhabited α] (W nrows hgt : Nat) (buf : List α) :
    List α :=
  (List.range nrows).foldl (fun buf i => sq_swap_row W i (hgt - (i + 1)) buf) buf

/-- `matrix__transpose_square`: asserts `m->width == m->height`, then for
`i = 0 .. m->height - 2` and `j = i + 1 .. m->height - 1` swaps cells
`(i, j)` and `(j, i)`.  The outer loop bound `m->height - 1` is the `size_t`
subtraction. -/
def matrix__transpose_square {α : Type} [Inhabited α] (m : matrix α) :
    CRes (matrix α) :=
  if m.width = m.height then
    CRes.ok { m with values :=
      (sq_swap_all m.width (size_sub_one m.height) m.height m.values) }
  else CRes.abort

/-- `matrix__transpose_single_col_or_row`: asserts
`m->width == 1 || m->height == 1`, then swaps the fields through an `int`
temporary: `int temp = m->height; m->height = m->width; m->width = temp;`. -/
def matrix__transpose_single_col_or_row {α : Type} (m : matrix α) :
    CRes (matrix α) :=
  if m.width = 1 ∨ m.height = 1 then
    CRes.ok { height := m.width, width := of_c_int (to_c_int m.height),
              values := m.values }
  else CRes.abort

/-- `matrix_transpose`: asserts `m && m->values`, then dispatches on shape:
vectors, squares, rectangles of at most 64 elements, larger rectangles.
`none` means a fueled loop ran out of fuel (shown impossible below);
`some CRes.abort` means a failed `assert`. -/
def matrix_transpose {α : Type} [Inhabited α] (m : matrix α) :
    Option (CRes (matrix α)) :=
  if m.width = 1 ∨ m.height = 1 then some (matrix__transpose_single_col_or_row m)
  else if m.width = m.height then some (matrix__transpose_square m)
  else if matrix_len m ≤ 64 then matrix__transpose_small_rectangle m
  else (matrix__transpose_rectangle m).map CRes.ok

-- Proof-support definitions for the cycle-following correctness argument.

/-- The inner cycle loop with exact (unwrapped) index arithmetic: the walk
of the spec's permutation `π(i) = (i * H) mod size` over the integers.  It
coincides with the source-faithful `transpose_inner` whenever no reachable
`size_t` product can wrap, i.e. when `size * Hv ≤ 2^64`
(`transpose_inner_eq_exact`); on larger shapes the two differ because the
source's product wraps modulo `2^64`. -/
def transpose_inner_exact {α β : Type} [Inhabited α] (bsSet : β → Nat → β)
    (Hv size : Nat) :
    Nat → List α → β → Nat → Nat → α → Option (List α × β)
  | 0, _, _, _, _, _ => none
  | fuel + 1, buf, bs, cycle_begin, i, temp =>
    let next := (i * Hv) % size
    let swap_temp := buf.getD next default
    let buf2 := buf.set next temp
    let bs2 := bsSet bs i
    if next = cycle_begin then some (buf2, bs2)
    else transpose_inner_exact bsSet Hv size fuel buf2 bs2 cycle_begin next
      swap_temp

/-- The outer loop run over `transpose_inner_exact` instead of
`transpose_inner`; equal to `transpose_outer` under the same no-wrap bound
(`transpose_outer_eq_exact`). -/
def transpose_outer_exact {α β : Type} [Inhabited α] (bsSet : β → Nat → β)
    (bsHas : β → Nat → Bool) (Hv size innerFuel : Nat) :
    Nat → List α → β → Nat → Option (List α × β)
  | 0, _, _, _ => none
  | fuel + 1, buf, bs, i =>
    if i < size then
      match transpose_inner_exact bsSet Hv size innerFuel buf bs i i
          (buf.getD i default) with
      | none => none
      | some (buf2, bs2) =>
        transpose_outer_exact bsSet bsHas Hv size innerFuel fuel buf2 bs2
          (transpose_scan bsHas size bs2 1)
    else some (buf, bs)

/-- The index permutation applied by the cycle-following loops:
`π(i) = (i * H) mod size`. -/
def tpi (Hv size i : Nat) : Nat :=
  i * Hv % size

/-- The first `p` iterates of `f` on `cb`, as a finite set.  With
`p = Function.minimalPeriod f cb` this is the cycle (orbit) of `cb`. -/
def orbit_upto (f : Nat → Nat) (p cb : Nat) : Finset Nat :=
  (Finset.range p).image (fun s => f^[s] cb)

/-- Abstraction relation between a concrete visited-bit store and the finite
set of indices it marks, on indices below the store's capacity `cap`. -/
def bs_repr {β : Type} (bsHas : β → Nat → Bool) (cap : Nat) (b : β)
    (S : Finset Nat) : Prop :=
  ∀ j, j < cap → (bsHas b j = true ↔ j ∈ S)

-- ======================================================================
-- Theorems.
-- ======================================================================

-- Helper lemmas about `List.getD`/`List.set`.

theorem getD_set_self {α : Type} (l : List α) (i : Nat) (a d : α) (h : i < l.length) :
    (l.set i a).getD i d = a := by
  simp [List.getD_eq_getElem?_getD, List.getElem?_set_self h]

theorem getD_set_ne {α : Type} (l : List α) (i j : Nat) (a d : α) (h : i ≠ j) :
    (l.set i a).getD j d = l.getD j d := by
  simp [List.getD_eq_getElem?_getD, List.getElem?_set_ne h]

theorem getD_eq_of_lists {α : Type} (l₁ l₂ : List α) (d : α)
    (hlen : l₁.length = l₂.length)
    (h : ∀ i, i < l₁.length → l₁.getD i d = l₂.getD i d) : l₁ = l₂ := by
  apply List.ext_getElem hlen
  intro i h₁ h₂
  have := h i h₁
  simpa [List.getD_eq_getElem?_getD, List.getElem?_eq_getElem, h₁, h₂] using this

-- ----------------------------------------------------------------------
-- C10: matrix_del lifecycle.
-- ----------------------------------------------------------------------

/-- C10: `matrix_del` on a matrix with a non-NULL buffer succeeds, leaves
`values = NULL` (and the dimension fields untouched), and a second
`matrix_del` on the resulting value aborts via the entry assertion instead
of reaching `free` again. -/
theorem matrix_del_spec {α : Type} (m : cmatrix α) (buf : List α)
    (h : m.values = some buf) :
    ∃ m2, matrix_del m = CRes.ok m2 ∧ m2.values = none ∧
      m2.height = m.height ∧ m2.width = m.width ∧
      matrix_del m2 = CRes.abort := by
  refine ⟨{ m with values := none }, ?_, rfl, rfl, rfl, rfl⟩
  simp [matrix_del, h]

/-- Witness for C10 at a concrete one-cell matrix. -/
theorem matrix_del_spec_witness :
    (cmatrix.mk 1 1 (some [(0 : ℚ)])).values = some [(0 : ℚ)] ∧
    (∃ m2, matrix_del (cmatrix.mk 1 1 (some [(0 : ℚ)])) = CRes.ok m2 ∧
      m2.values = none ∧ m2.height = 1 ∧ m2.width = 1 ∧
      matrix_del m2 = CRes.abort) :=
  ⟨rfl, matrix_del_spec (cmatrix.mk 1 1 (some [(0 : ℚ)])) [(0 : ℚ)] rfl⟩

-- ----------------------------------------------------------------------
-- C9: zero-element rectangles wrap `size` to SIZE_MAX and abort.
-- ----------------------------------------------------------------------

/-- Shared helper: a zero-element rectangle reaches the small-rectangle
path, wraps `size` to `SIZE_MAX`, and aborts on `assert(size < 64)`. -/
theorem zero_rect_aborts {α : Type} [Inhabited α]
    (m : matrix α)
    (h : (m.height = 0 ∧ 2 ≤ m.width) ∨ (m.width = 0 ∧ 2 ≤ m.height)) :
    size_sub_one (matrix_len m) = USIZE - 1 ∧
    matrix_transpose m = some CRes.abort := by
  have hlen : matrix_len m = 0 := by
    unfold matrix_len
    rcases h with ⟨h0, _⟩ | ⟨h0, _⟩ <;> simp [h0]
  have hwrap : size_sub_one (matrix_len m) = USIZE - 1 := by
    rw [hlen]
    norm_num [size_sub_one, USIZE]
  refine ⟨hwrap, ?_⟩
  have hnv : ¬(m.width = 1 ∨ m.height = 1) := by
    rcases h with ⟨h0, h2⟩ | ⟨h0, h2⟩ <;> omega
  have hns : ¬(m.width = m.height) := by
    rcases h with ⟨h0, h2⟩ | ⟨h0, h2⟩ <;> omega
  have hsmall : matrix_len m ≤ 64 := by omega
  unfold matrix_transpose
  rw [if_neg hnv, if_neg hns, if_pos hsmall]
  unfold matrix__transpose_small_rectangle
  rw [hwrap]
  norm_num [USIZE]

/-- C9: for a matrix with `height = 0, width ≥ 2` or `width = 0, height ≥ 2`,
`matrix_transpose` dispatches to the small-rectangle path, the `size_t`
computation `matrix_len(m) - 1` wraps to `SIZE_MAX`, and the path's
`assert(size < 64)` fails: the transpose aborts and never completes. -/
theorem matrix_transpose_zero_rectangle_aborts {α : Type} [Inhabited α]
    (m : matrix α)
    (h : (m.height = 0 ∧ 2 ≤ m.width) ∨ (m.width = 0 ∧ 2 ≤ m.height)) :
    size_sub_one (matrix_len m) = USIZE - 1 ∧
    matrix_transpose m = some CRes.abort :=
  zero_rect_aborts m h

/-- Witness for C9: the concrete `0 × 2` matrix. -/
theorem matrix_transpose_zero_rectangle_aborts_witness :
    (((matrix.mk 0 2 ([] : List ℚ)).height = 0 ∧ 2 ≤ (matrix.mk 0 2 ([] : List ℚ)).width) ∨
      ((matrix.mk 0 2 ([] : List ℚ)).width = 0 ∧ 2 ≤ (matrix.mk 0 2 ([] : List ℚ)).height)) ∧
    (size_sub_one (matrix_len (matrix.mk 0 2 ([] : List ℚ))) = USIZE - 1 ∧
      matrix_transpose (matrix.mk 0 2 ([] : List ℚ)) = some CRes.abort) :=
  ⟨Or.inl ⟨rfl, by norm_num⟩,
    matrix_transpose_zero_rectangle_aborts (matrix.mk 0 2 ([] : List ℚ))
      (Or.inl ⟨rfl, by norm_num⟩)⟩

-- ----------------------------------------------------------------------
-- C5: the single-row/column path and the `int temp` truncation.
-- ----------------------------------------------------------------------

/-- C5 failing input: a `2^40 × 1` column vector.  The vector path moves no
element, but because the field swap goes through an `int` temporary
(`int temp = m->height;`), the new width comes out as `0`, not as the old
height `2^40`: the code contradicts the spec's `swap height and width
fields only`. -/
theorem matrix_transpose_huge_vector_truncates :
    matrix_transpose (matrix.mk (2 ^ 40) 1 (List.replicate (2 ^ 40) (0 : ℚ))) =
      some (CRes.ok (matrix.mk 1 0 (List.replicate (2 ^ 40) (0 : ℚ)))) ∧
    (0 : Nat) ≠ 2 ^ 40 := by
  constructor
  · unfold matrix_transpose matrix__transpose_single_col_or_row
    norm_num [to_c_int, of_c_int]
  · norm_num

/-- The correct behaviour of the vector path for heights representable in
`int` (in particular all heights below `2^31`): the buffer does not move and
the height and width fields are exactly swapped. -/
theorem matrix_transpose_vector_spec {α : Type} [Inhabited α] (m : matrix α)
    (hv : m.width = 1 ∨ m.height = 1) (hh : m.height < 2 ^ 31) :
    matrix_transpose m =
      some (CRes.ok (matrix.mk m.width m.height m.values)) := by
  have h32 : m.height % 2 ^ 32 = m.height := Nat.mod_eq_of_lt (by omega)
  unfold matrix_transpose matrix__transpose_single_col_or_row
  rw [if_pos hv, if_pos hv]
  have : of_c_int (to_c_int m.height) = m.height := by
    unfold to_c_int of_c_int
    rw [h32, if_pos (by omega)]
    rw [Int.emod_eq_of_lt (by positivity) (by norm_num [USIZE]; exact_mod_cast by omega)]
    simp
  rw [this]

/-- Witness for the vector-path theorem at the concrete `2 × 1` column of
the spec's test (`[1,2]` becomes a `1 × 2` row `[1,2]`, no movement). -/
theorem matrix_transpose_vector_spec_witness :
    ((matrix.mk 2 1 [(1 : ℚ), 2]).width = 1 ∨ (matrix.mk 2 1 [(1 : ℚ), 2]).height = 1) ∧
    (matrix.mk 2 1 [(1 : ℚ), 2]).height < 2 ^ 31 ∧
    matrix_transpose (matrix.mk 2 1 [(1 : ℚ), 2]) =
      some (CRes.ok (matrix.mk 1 2 [(1 : ℚ), 2])) :=
  ⟨Or.inl rfl, by norm_num,
    matrix_transpose_vector_spec (matrix.mk 2 1 [(1 : ℚ), 2]) (Or.inl rfl) (by norm_num)⟩

-- ----------------------------------------------------------------------
-- C3: range of uniform-fill cells.
-- ----------------------------------------------------------------------

/-- C3 counterexample: with `a = 0 < b = 1` and a `rand()` stream constantly
returning `RAND_MAX` (a legal value in `[0, RAND_MAX]`), the single cell of
a `1 × 1` uniform matrix equals `b = 1` exactly, so it is not strictly less
than `b`. -/
theorem matrix_new_uniform_hits_b :
    matrix_new_uniform 1 1 0 1 (fun _ => RAND_MAX) [0] =
      CRes.ok (matrix.mk 1 1 [1]) ∧
    (∀ k, (fun _ : Nat => RAND_MAX) k ≤ RAND_MAX) ∧
    (0 : ℚ) < 1 ∧ ¬((1 : ℚ) < 1) := by
  refine ⟨?_, fun k => le_refl _, by norm_num, by norm_num⟩
  unfold matrix_new_uniform matrix_fill_uniform matrix_len
  norm_num [List.range_succ, RAND_MAX]

/-- C3 amended: for all `a < b` and every `rand()` stream of values in
`[0, RAND_MAX]`, every cell of `matrix_new_uniform` lies in the closed
interval `[a, b]` (under the exact arithmetic of the model). -/
theorem matrix_new_uniform_range (height width : Nat) (a b : ℚ) (rs : Nat → Nat)
    (junk : List ℚ) (hab : a < b) (hrs : ∀ k, rs k ≤ RAND_MAX) :
    ∃ r, matrix_new_uniform height width a b rs junk = CRes.ok r ∧
      r.height = height ∧ r.width = width ∧
      r.values.length = height * width ∧
      ∀ v ∈ r.values, a ≤ v ∧ v ≤ b := by
  unfold matrix_new_uniform matrix_fill_uniform
  rw [if_pos hab]
  refine ⟨_, rfl, rfl, rfl, by simp [matrix_len], ?_⟩
  intro v hv
  simp only [List.mem_map, List.mem_range] at hv
  obtain ⟨i, _, rfl⟩ := hv
  have hq0 : (0 : ℚ) ≤ (rs i : ℚ) / (RAND_MAX : ℚ) :=
    div_nonneg (by positivity) (by norm_num [RAND_MAX])
  have hq1 : (rs i : ℚ) / (RAND_MAX : ℚ) ≤ 1 := by
    rw [div_le_one (by norm_num [RAND_MAX])]
    exact_mod_cast hrs i
  constructor
  · nlinarith
  · nlinarith

/-- Witness for the amended C3 at a concrete instance. -/
theorem matrix_new_uniform_range_witness :
    (0 : ℚ) < 1 ∧ (∀ k, (fun _ : Nat => 7) k ≤ RAND_MAX) ∧
    (∃ r, matrix_new_uniform 2 2 0 1 (fun _ => 7) [0, 0, 0, 0] = CRes.ok r ∧
      r.height = 2 ∧ r.width = 2 ∧ r.values.length = 2 * 2 ∧
      ∀ v ∈ r.values, (0 : ℚ) ≤ v ∧ v ≤ 1) :=
  ⟨by norm_num, fun k => by norm_num [RAND_MAX],
    matrix_new_uniform_range 2 2 0 1 (fun _ => 7) [0, 0, 0, 0] (by norm_num)
      (fun k => by norm_num [RAND_MAX])⟩

-- ----------------------------------------------------------------------
-- C7: elementwise add/sub shape checking and cells.
-- ----------------------------------------------------------------------

/-- C7: `matrix_add`/`matrix_sub` abort on any height or width mismatch and
never produce a result there; on identical shapes they succeed, with every
cell `a_ij + b_ij` (resp. `a_ij - b_ij`).  The operand `b` is `const` in the
C source and is not modified (in the model it is passed by value and only
read). -/
theorem matrix_add_sub_spec {α : Type} [Inhabited α] [Add α] [Sub α]
    (a b : matrix α) :
    ((a.height ≠ b.height ∨ a.width ≠ b.width) →
      matrix_add a b = CRes.abort ∧ matrix_sub a b = CRes.abort) ∧
    (a.height = b.height → a.width = b.width →
      ∃ r s, matrix_add a b = CRes.ok r ∧ matrix_sub a b = CRes.ok s ∧
        r.height = a.height ∧ r.width = a.width ∧
        s.height = a.height ∧ s.width = a.width ∧
        (∀ i, i < matrix_len a →
          r.values.getD i default =
            a.values.getD i default + b.values.getD i default ∧
          s.values.getD i default =
            a.values.getD i default - b.values.getD i default)) := by
  constructor
  · intro h
    have hc : ¬(a.height = b.height ∧ a.width = b.width) := by tauto
    exact ⟨by simp only [matrix_add, if_neg hc], by simp only [matrix_sub, if_neg hc]⟩
  · intro h1 h2
    have hadd : matrix_add a b = CRes.ok { a with values :=
        ((List.range (matrix_len a)).map
          (fun i => a.values.getD i default + b.values.getD i default)) } := by
      simp only [matrix_add, if_pos (And.intro h1 h2)]
    have hsub : matrix_sub a b = CRes.ok { a with values :=
        ((List.range (matrix_len a)).map
          (fun i => a.values.getD i default - b.values.getD i default)) } := by
      simp only [matrix_sub, if_pos (And.intro h1 h2)]
    refine ⟨_, _, hadd, hsub, rfl, rfl, rfl, rfl, ?_⟩
    intro i hi
    constructor <;>
      simp [List.getD_eq_getElem?_getD, List.getElem?_map, List.getElem?_range, hi]

/-- Witness for C7: a concrete mismatched pair aborts, and a concrete
matched pair produces the elementwise results. -/
theorem matrix_add_sub_spec_witness :
    (matrix_add (matrix.mk 2 2 [(1 : ℚ), 2, 3, 4]) (matrix.mk 3 3 []) = CRes.abort ∧
      matrix_sub (matrix.mk 2 2 [(1 : ℚ), 2, 3, 4]) (matrix.mk 3 3 []) = CRes.abort) ∧
    (∃ r s,
      matrix_add (matrix.mk 2 2 [(1 : ℚ), 2, -1, -0.5]) (matrix.mk 2 2 [(1 : ℚ), 0, 3, 2.5]) =
        CRes.ok r ∧
      matrix_sub (matrix.mk 2 2 [(1 : ℚ), 2, -1, -0.5]) (matrix.mk 2 2 [(1 : ℚ), 0, 3, 2.5]) =
        CRes.ok s ∧
      r.height = 2 ∧ r.width = 2 ∧ s.height = 2 ∧ s.width = 2 ∧
      (∀ i, i < matrix_len (matrix.mk 2 2 [(1 : ℚ), 2, -1, -0.5]) →
        r.values.getD i default =
          (matrix.mk 2 2 [(1 : ℚ), 2, -1, -0.5]).values.getD i default +
            (matrix.mk 2 2 [(1 : ℚ), 0, 3, 2.5]).values.getD i default ∧
        s.values.getD i default =
          (matrix.mk 2 2 [(1 : ℚ), 2, -1, -0.5]).values.getD i default -
            (matrix.mk 2 2 [(1 : ℚ), 0, 3, 2.5]).values.getD i default)) :=
  ⟨(matrix_add_sub_spec (matrix.mk 2 2 [(1 : ℚ), 2, 3, 4]) (matrix.mk 3 3 [])).1
      (Or.inl (by norm_num)),
    (matrix_add_sub_spec (matrix.mk 2 2 [(1 : ℚ), 2, -1, -0.5])
      (matrix.mk 2 2 [(1 : ℚ), 0, 3, 2.5])).2 rfl rfl⟩

-- ----------------------------------------------------------------------
-- C8: matrix_print output structure.
-- ----------------------------------------------------------------------

theorem flatten_map_space {γ : Type} (g : γ → List Char) (l : List γ) :
    (l.map (fun x => g x ++ [' '])).flatten =
      space_separated (l.map g) ++ (if l.isEmpty then [] else [' ']) := by
  induction l with
  | nil => simp [space_separated]
  | cons x t ih =>
    cases t with
    | nil => simp [space_separated]
    | cons y t2 =>
      simp only [List.map_cons, List.flatten_cons] at ih ⊢
      rw [ih]
      simp [space_separated, List.append_assoc]

/-- C8: the output of `matrix_print` is exactly one line per row, each line
terminated by a single `'\n'`; within a line the rendered cell values of the
row appear in column order separated by a single `' '` (with the `"%f "`
format's trailing space before the newline on non-empty rows); nothing else
— no header, no dimension metadata — is emitted.  The fixed-point rendering
of one `double` is the abstract `fmt`. -/
theorem matrix_print_format {α : Type} [Inhabited α] (fmt : α → List Char)
    (m : matrix α) :
    matrix_print fmt m =
      ((List.range m.height).map (fun row =>
        space_separated ((List.range m.width).map (fun col => fmt (matrix_get m row col)))
          ++ (if m.width = 0 then [] else [' ']) ++ ['\n'])).flatten := by
  unfold matrix_print
  congr 1
  apply List.map_congr_left
  intro row _
  rw [flatten_map_space (fun col => fmt (matrix_get m row col)) (List.range m.width)]
  by_cases hw : m.width = 0
  · simp [hw, List.append_assoc]
  · have hne : (List.range m.width).isEmpty = false := by
      simp [List.isEmpty_iff, List.range_eq_nil, hw]
    rw [hne, if_neg hw]
    simp [List.append_assoc]

-- ----------------------------------------------------------------------
-- C4: matrix multiplication.
-- ----------------------------------------------------------------------

theorem set_getD_self {α : Type} (l : List α) (i : Nat) (d : α)
    (hlt : i < l.length) : l.set i (l.getD i d) = l := by
  apply List.ext_getElem (by simp)
  intro j hj1 hj2
  by_cases hij : i = j
  · subst hij
    simp [List.getD_eq_getElem?_getD, List.getElem?_eq_getElem hlt]
  · simp [List.getElem_set_ne hij]

/-- Accumulating into one fixed buffer cell equals a single write of the
left-to-right fold. -/
theorem foldl_set_accum {α : Type} [Inhabited α] [Add α] (l : List Nat)
    (f : Nat → α) (field : Nat) :
    ∀ (buf : List α), field < buf.length →
      l.foldl (fun bf i => bf.set field (bf.getD field default + f i)) buf =
        buf.set field (l.foldl (fun acc i => acc + f i) (buf.getD field default)) := by
  induction l with
  | nil =>
    intro buf hf
    simpa using (set_getD_self buf field default hf).symm
  | cons x t ih =>
    intro buf hf
    simp only [List.foldl_cons]
    rw [ih (buf.set field (buf.getD field default + f x)) (by simpa using hf),
      getD_set_self _ _ _ _ hf, List.set_set]

/-- One output-cell computation of `matrix_matmul_into` (zero the cell, then
accumulate) as a single write. -/
theorem matmul_cell_write {α : Type} [Inhabited α] [Add α] [Mul α] [Zero α]
    (a b : matrix α) (row col field k : Nat) (buf : List α)
    (hf : field < buf.length) :
    (List.range k).foldl (fun bf i =>
        bf.set field (bf.getD field default + matrix_get a row i * matrix_get b i col))
      (buf.set field 0) =
      buf.set field ((List.range k).foldl
        (fun acc i => acc + matrix_get a row i * matrix_get b i col) 0) := by
  rw [foldl_set_accum (List.range k) (fun i => matrix_get a row i * matrix_get b i col)
      field (buf.set field 0) (by simpa using hf),
    getD_set_self _ _ _ _ hf, List.set_set]

theorem flat_index_inj (W r1 c1 r2 c2 : Nat) (h1 : c1 < W) (h2 : c2 < W)
    (h : r1 * W + c1 = r2 * W + c2) : r1 = r2 ∧ c1 = c2 := by
  have hW : 0 < W := by omega
  have d1 : (r1 * W + c1) / W = r1 := by
    rw [Nat.add_comm, Nat.add_mul_div_right _ _ hW, Nat.div_eq_of_lt h1, Nat.zero_add]
  have d2 : (r2 * W + c2) / W = r2 := by
    rw [Nat.add_comm, Nat.add_mul_div_right _ _ hW, Nat.div_eq_of_lt h2, Nat.zero_add]
  have hr : r1 = r2 := by rw [← d1, ← d2, h]
  subst hr
  exact ⟨rfl, by omega⟩

/-- `mm_cell_loop` is a single write of `matmul_cell`. -/
theorem mm_cell_loop_spec {α : Type} [Inhabited α] [Add α] [Mul α] [Zero α]
    (a b : matrix α) (W row col : Nat) (buf : List α)
    (hf : row * W + col < buf.length) :
    mm_cell_loop a b W row col buf =
      buf.set (row * W + col) (matmul_cell a b row col) := by
  unfold mm_cell_loop matmul_cell
  rw [foldl_set_accum (List.range a.width)
      (fun i => matrix_get a row i * matrix_get b i col)
      (row * W + col) (buf.set (row * W + col) 0) (by simpa using hf),
    getD_set_self _ _ _ _ hf, List.set_set]

/-- Effect of the column loop on one row: cells `(row, col)` for `col < ncols`
receive `matmul_cell`, everything else is untouched. -/
theorem mm_col_loop_spec {α : Type} [Inhabited α] [Add α] [Mul α] [Zero α]
    (a b : matrix α) (W row : Nat) :
    ∀ (ncols : Nat) (buf : List α), (∀ col, col < ncols → row * W + col < buf.length) →
      (mm_col_loop a b W row ncols buf).length = buf.length ∧
      (∀ col, col < ncols →
        (mm_col_loop a b W row ncols buf).getD (row * W + col) default =
          matmul_cell a b row col) ∧
      (∀ j, (∀ col, col < ncols → j ≠ row * W + col) →
        (mm_col_loop a b W row ncols buf).getD j default = buf.getD j default) := by
  intro ncols
  induction ncols with
  | zero => exact fun buf _ => ⟨rfl, fun col h => absurd h (by omega), fun j _ => rfl⟩
  | succ n ih =>
    intro buf hbnd
    have hstep : mm_col_loop a b W row (n + 1) buf =
        mm_cell_loop a b W row n (mm_col_loop a b W row n buf) := by
      unfold mm_col_loop
      rw [List.range_succ, List.foldl_append, List.foldl_cons, List.foldl_nil]
    obtain ⟨ihl, ihcell, ihother⟩ := ih buf (fun col hc => hbnd col (by omega))
    have hfn : row * W + n < (mm_col_loop a b W row n buf).length := by
      rw [ihl]; exact hbnd n (by omega)
    rw [hstep, mm_cell_loop_spec a b W row n _ hfn]
    refine ⟨by simpa using ihl, ?_, ?_⟩
    · intro col hc
      by_cases hcn : col = n
      · subst hcn
        exact getD_set_self _ _ _ _ hfn
      · rw [getD_set_ne _ _ _ _ _ (by omega)]
        exact ihcell col (by omega)
    · intro j hj
      rw [getD_set_ne _ _ _ _ _ (fun he => hj n (by omega) he.symm)]
      exact ihother j (fun col hc => hj col (by omega))

/-- Effect of the row loop: every cell `(r, col)` with `r < nrows`,
`col < ncols` receives `matmul_cell`, everything else is untouched. -/
theorem mm_row_loop_spec {α : Type} [Inhabited α] [Add α] [Mul α] [Zero α]
    (a b : matrix α) (W : Nat) :
    ∀ (nrows ncols : Nat) (buf : List α), ncols ≤ W →
      (∀ r col, r < nrows → col < ncols → r * W + col < buf.length) →
      (mm_row_loop a b W nrows ncols buf).length = buf.length ∧
      (∀ r col, r < nrows → col < ncols →
        (mm_row_loop a b W nrows ncols buf).getD (r * W + col) default =
          matmul_cell a b r col) := by
  intro nrows
  induction nrows with
  | zero => exact fun ncols buf _ _ => ⟨rfl, fun r col hr => absurd hr (by omega)⟩
  | succ n ih =>
    intro ncols buf hcw hbnd
    have hstep : mm_row_loop a b W (n + 1) ncols buf =
        mm_col_loop a b W n ncols (mm_row_loop a b W n ncols buf) := by
      unfold mm_row_loop
      rw [List.range_succ, List.foldl_append, List.foldl_cons, List.foldl_nil]
    obtain ⟨ihl, ihcell⟩ := ih ncols buf hcw (fun r col hr hc => hbnd r col (by omega) hc)
    have hbnd2 : ∀ col, col < ncols → n * W + col < (mm_row_loop a b W n ncols buf).length := by
      intro col hc
      rw [ihl]; exact hbnd n col (by omega) hc
    obtain ⟨cl, ccell, cother⟩ := mm_col_loop_spec a b W n ncols _ hbnd2
    rw [hstep]
    refine ⟨by rw [cl, ihl], ?_⟩
    intro r col hr hc
    by_cases hrn : r = n
    · subst hrn
      exact ccell col hc
    · rw [cother _ ?_]
      · exact ihcell r col (by omega) hc
      · intro col2 hc2 he
        exact hrn (flat_index_inj W r col n col2 (by omega) (by omega) he).1

theorem cell_flat_lt (H W r c : Nat) (hr : r < H) (hc : c < W) :
    r * W + c < H * W :=
  calc r * W + c < r * W + W := by omega
  _ = (r + 1) * W := by ring
  _ ≤ H * W := Nat.mul_le_mul_right W (Nat.succ_le_of_lt hr)

/-- C4: `matrix_matmul_into` (under its shape preconditions) sets output cell
`(i, j)` to `Σ_{t=0}^{k-1} a[i][t] * b[t][j]` accumulated left-to-right over
`t`; `matrix_matmul` delegates to `matrix_matmul_into` on a freshly allocated
`m × n` matrix and returns exactly those cells; in particular
`[[1,2],[3,4]] × [[5],[6]] = [[17],[39]]`. -/
theorem matrix_matmul_spec :
    (∀ (a b dest : matrix ℚ), dest.values.length = matrix_len dest →
      a.width = b.height → dest.height = a.height → dest.width = b.width →
      ∃ r, matrix_matmul_into a b dest = CRes.ok r ∧
        r.height = dest.height ∧ r.width = dest.width ∧
        r.values.length = dest.values.length ∧
        (∀ i j, i < dest.height → j < dest.width →
          r.values.getD (i * dest.width + j) default =
            (List.range a.width).foldl
              (fun acc t => acc + matrix_get a i t * matrix_get b t j) 0)) ∧
    (∀ (a b : matrix ℚ) (junk : List ℚ), a.width = b.height →
      matrix_matmul a b junk =
        matrix_matmul_into a b (matrix.mk a.height b.width junk)) ∧
    (∀ (a b : matrix ℚ) (junk : List ℚ), a.width = b.height →
      junk.length = a.height * b.width →
      ∃ r, matrix_matmul a b junk = CRes.ok r ∧
        r.height = a.height ∧ r.width = b.width ∧
        (∀ i j, i < a.height → j < b.width →
          r.values.getD (i * b.width + j) default =
            (List.range a.width).foldl
              (fun acc t => acc + matrix_get a i t * matrix_get b t j) 0)) ∧
    matrix_matmul (matrix.mk 2 2 [(1 : ℚ), 2, 3, 4]) (matrix.mk 2 1 [(5 : ℚ), 6]) [0, 0] =
      CRes.ok (matrix.mk 2 1 [(17 : ℚ), 39]) := by
  have main : ∀ (a b dest : matrix ℚ), dest.values.length = matrix_len dest →
      a.width = b.height → dest.height = a.height → dest.width = b.width →
      ∃ r, matrix_matmul_into a b dest = CRes.ok r ∧
        r.height = dest.height ∧ r.width = dest.width ∧
        r.values.length = dest.values.length ∧
        (∀ i j, i < dest.height → j < dest.width →
          r.values.getD (i * dest.width + j) default =
            (List.range a.width).foldl
              (fun acc t => acc + matrix_get a i t * matrix_get b t j) 0) := by
    intro a b dest hlen hab hdh hdw
    have hbnd : ∀ r col, r < dest.height → col < dest.width →
        r * dest.width + col < dest.values.length := by
      intro r col hr hc
      rw [hlen]
      exact cell_flat_lt dest.height dest.width r col hr hc
    obtain ⟨hl, hcells⟩ := mm_row_loop_spec a b dest.width dest.height dest.width
      dest.values (le_refl _) hbnd
    have hinto : matrix_matmul_into a b dest = CRes.ok { dest with values :=
        (mm_row_loop a b dest.width dest.height dest.width dest.values) } := by
      simp only [matrix_matmul_into, if_pos (And.intro hab (And.intro hdh hdw))]
    refine ⟨_, hinto, rfl, rfl, hl, ?_⟩
    intro i j hi hj
    have := hcells i j hi hj
    rwa [matmul_cell] at this
  refine ⟨main, ?_, ?_, ?_⟩
  · intro a b junk hab
    simp only [matrix_matmul, if_pos hab]
  · intro a b junk hab hjlen
    obtain ⟨r, hr, h1, h2, _, hcells⟩ :=
      main a b (matrix.mk a.height b.width junk) (by simpa [matrix_len] using hjlen)
        hab rfl rfl
    refine ⟨r, ?_, h1, h2, hcells⟩
    rw [matrix_matmul, if_pos hab]
    exact hr
  · norm_num [matrix_matmul, matrix_matmul_into, mm_row_loop, mm_col_loop,
      mm_cell_loop, matrix_get, matrix_len, List.range_succ]

-- ----------------------------------------------------------------------
-- Square transpose path: correctness.
-- ----------------------------------------------------------------------

/-- Effect of one inner row of the square swap: positions `(i, j)` and
`(j, i)` for `j ∈ [i+1, i+1+n)` are exchanged, everything else untouched. -/
theorem sq_swap_row_spec {α : Type} [Inhabited α] (W i : Nat) (hiW : i < W) :
    ∀ (n : Nat) (buf : List α), i + 1 + n ≤ W →
      (∀ j, i + 1 ≤ j → j < i + 1 + n →
        i * W + j < buf.length ∧ j * W + i < buf.length) →
      (sq_swap_row W i n buf).length = buf.length ∧
      (∀ j, i + 1 ≤ j → j < i + 1 + n →
        (sq_swap_row W i n buf).getD (i * W + j) default =
          buf.getD (j * W + i) default ∧
        (sq_swap_row W i n buf).getD (j * W + i) default =
          buf.getD (i * W + j) default) ∧
      (∀ p, (∀ j, i + 1 ≤ j → j < i + 1 + n → p ≠ i * W + j ∧ p ≠ j * W + i) →
        (sq_swap_row W i n buf).getD p default = buf.getD p default) := by
  intro n
  induction n with
  | zero =>
    exact fun buf _ _ => ⟨rfl, fun j h1 h2 => absurd h2 (by omega), fun p _ => rfl⟩
  | succ n ih =>
    intro buf hn hbnd
    set jn := i + 1 + n with hjn
    have hstep : sq_swap_row W i (n + 1) buf =
        (((sq_swap_row W i n buf).set (i * W + jn)
            ((sq_swap_row W i n buf).getD (jn * W + i) default)).set
          (jn * W + i) ((sq_swap_row W i n buf).getD (i * W + jn) default)) := by
      unfold sq_swap_row
      rw [List.range'_concat, List.foldl_append, List.foldl_cons, List.foldl_nil]
      have : i + 1 + 1 * n = jn := by omega
      rw [this]
    obtain ⟨ihl, ihswap, ihother⟩ := ih buf (by omega)
      (fun j h1 h2 => hbnd j h1 (by omega))
    have hjnW : jn < W := by omega
    have hd1 : i * W + jn ≠ jn * W + i := by
      intro he
      have := (flat_index_inj W i jn jn i hjnW hiW he).1
      omega
    -- the two cells written in this step read the not-yet-touched values
    have hr1 : (sq_swap_row W i n buf).getD (jn * W + i) default =
        buf.getD (jn * W + i) default := by
      apply ihother
      intro j h1 h2
      constructor
      · intro he
        have := (flat_index_inj W jn i i j hiW (by omega) he).1
        omega
      · intro he
        have := (flat_index_inj W jn i j i hiW hiW he).1
        omega
    have hr2 : (sq_swap_row W i n buf).getD (i * W + jn) default =
        buf.getD (i * W + jn) default := by
      apply ihother
      intro j h1 h2
      constructor
      · intro he
        have := (flat_index_inj W i jn i j hjnW (by omega) he).2
        omega
      · intro he
        have := (flat_index_inj W i jn j i hjnW hiW he).1
        omega
    have hb1 : i * W + jn < (sq_swap_row W i n buf).length := by
      rw [ihl]; exact (hbnd jn (by omega) (by omega)).1
    have hb2 : jn * W + i < (sq_swap_row W i n buf).length := by
      rw [ihl]; exact (hbnd jn (by omega) (by omega)).2
    refine ⟨by rw [hstep]; simpa using ihl, ?_, ?_⟩
    · intro j h1 h2
      by_cases hj : j = jn
      · subst hj
        constructor
        · rw [hstep, getD_set_ne _ _ _ _ _ (Ne.symm hd1),
            getD_set_self _ _ _ _ hb1, hr1]
        · rw [hstep, getD_set_self _ _ _ _ (by simpa using hb2), hr2]
      · have hjlt : j < i + 1 + n := by omega
        have hne1 : jn * W + i ≠ i * W + j := by
          intro he
          have := (flat_index_inj W jn i i j hiW (by omega) he).1
          omega
        have hne2 : i * W + jn ≠ i * W + j := by
          intro he
          have := (flat_index_inj W i jn i j hjnW (by omega) he).2
          omega
        have hne3 : jn * W + i ≠ j * W + i := by
          intro he
          have := (flat_index_inj W jn i j i hiW hiW he).1
          omega
        have hne4 : i * W + jn ≠ j * W + i := by
          intro he
          have := (flat_index_inj W i jn j i hjnW hiW he).1
          omega
        rw [hstep]
        rw [getD_set_ne _ _ _ _ _ hne1, getD_set_ne _ _ _ _ _ hne2,
          getD_set_ne _ _ _ _ _ hne3, getD_set_ne _ _ _ _ _ hne4]
        exact ⟨(ihswap j h1 hjlt).1, (ihswap j h1 hjlt).2⟩
    · intro p hp
      have h1 := hp jn (by omega) (by omega)
      rw [hstep, getD_set_ne _ _ _ _ _ (fun he => h1.2 he.symm),
        getD_set_ne _ _ _ _ _ (fun he => h1.1 he.symm)]
      exact ihother p (fun j hj1 hj2 => hp j hj1 (by omega))

theorem size_sub_one_eq (n : Nat) (h1 : 1 ≤ n) (h2 : n < USIZE) :
    size_sub_one n = n - 1 := by
  unfold size_sub_one
  rw [if_neg (by omega)]

/-- Invariant of the square outer loop: after `n` rows, every pair whose
smaller coordinate is below `n` has been exchanged, nothing else moved. -/
theorem sq_swap_all_spec {α : Type} [Inhabited α] (h : Nat) :
    ∀ (n : Nat) (buf : List α), n ≤ h → buf.length = h * h →
      (sq_swap_all h n h buf).length = buf.length ∧
      (∀ a b, a < h → b < h →
        (sq_swap_all h n h buf).getD (a * h + b) default =
          (if min a b < n then buf.getD (b * h + a) default
           else buf.getD (a * h + b) default)) := by
  intro n
  induction n with
  | zero =>
    intro buf _ _
    refine ⟨rfl, ?_⟩
    intro a b _ _
    rw [if_neg (by omega)]
    simp [sq_swap_all]
  | succ n ih =>
    intro buf hn hlen
    have hstep : sq_swap_all h (n + 1) h buf =
        sq_swap_row h n (h - (n + 1)) (sq_swap_all h n h buf) := by
      unfold sq_swap_all
      rw [List.range_succ, List.foldl_append, List.foldl_cons, List.foldl_nil]
    obtain ⟨ihl, ihcells⟩ := ih buf (by omega) hlen
    have hbnd : ∀ j, n + 1 ≤ j → j < n + 1 + (h - (n + 1)) →
        n * h + j < (sq_swap_all h n h buf).length ∧
        j * h + n < (sq_swap_all h n h buf).length := by
      intro j h1 h2
      rw [ihl, hlen]
      exact ⟨cell_flat_lt h h n j (by omega) (by omega),
        cell_flat_lt h h j n (by omega) (by omega)⟩
    obtain ⟨sl, sswap, sother⟩ := sq_swap_row_spec h n (by omega)
      (h - (n + 1)) (sq_swap_all h n h buf) (by omega) hbnd
    rw [hstep]
    refine ⟨by rw [sl, ihl], ?_⟩
    intro a b ha hb
    by_cases hcase : (a = n ∧ n < b) ∨ (b = n ∧ n < a)
    · -- the cells swapped during this outer iteration
      rcases hcase with ⟨haeq, hab⟩ | ⟨hbeq, hab⟩
      · subst haeq
        rw [(sswap b (by omega) (by omega)).1, ihcells b a hb (by omega),
          if_neg (by omega), if_pos (by omega)]
      · subst hbeq
        rw [(sswap a (by omega) (by omega)).2, ihcells b a (by omega) ha,
          if_neg (by omega), if_pos (by omega)]
    · -- untouched this iteration
      have huntouched : ∀ j, n + 1 ≤ j → j < n + 1 + (h - (n + 1)) →
          a * h + b ≠ n * h + j ∧ a * h + b ≠ j * h + n := by
        intro j h1 h2
        constructor
        · intro he
          obtain ⟨e1, e2⟩ := flat_index_inj h a b n j hb (by omega) he
          exact hcase (Or.inl ⟨e1, by omega⟩)
        · intro he
          obtain ⟨e1, e2⟩ := flat_index_inj h a b j n hb (by omega) he
          exact hcase (Or.inr ⟨e2, by omega⟩)
      rw [sother _ huntouched, ihcells a b ha hb]
      by_cases hmin : min a b < n
      · rw [if_pos hmin, if_pos (by omega)]
      · rw [if_neg hmin]
        by_cases hlt : min a b < n + 1
        · -- min a b = n and not in hcase: forces a = b = n (the diagonal)
          have haeq : a = n := by
            by_contra han
            exact hcase (Or.inr ⟨by omega, by omega⟩)
          have hbeq : b = n := by
            by_contra hbn
            exact hcase (Or.inl ⟨by omega, by omega⟩)
          subst haeq
          rw [if_pos (by omega), hbeq]
        · rw [if_neg hlt]

/-- `matrix__transpose_square` on a square matrix exchanges every cell
`(a, b)` with `(b, a)` and changes nothing else. -/
theorem matrix_transpose_square_spec {α : Type} [Inhabited α] (m : matrix α)
    (hsq : m.width = m.height) (h1 : 1 ≤ m.height)
    (hlen : m.values.length = matrix_len m) (hsz : matrix_len m < USIZE) :
    ∃ buf, matrix__transpose_square m = CRes.ok (matrix.mk m.height m.width buf) ∧
      buf.length = m.values.length ∧
      (∀ a b, a < m.height → b < m.height →
        buf.getD (a * m.height + b) default =
          m.values.getD (b * m.height + a) default) := by
  have hml : matrix_len m = m.height * m.height := by
    unfold matrix_len
    rw [hsq]
  have hhu : m.height < USIZE := by
    have : m.height ≤ m.height * m.height := Nat.le_mul_of_pos_left _ (by omega)
    omega
  have hsub : size_sub_one m.height = m.height - 1 :=
    size_sub_one_eq m.height h1 hhu
  obtain ⟨hl, hcells⟩ := sq_swap_all_spec m.height (m.height - 1) m.values
    (by omega) (by rw [hlen, hml])
  refine ⟨sq_swap_all m.width (size_sub_one m.height) m.height m.values, ?_, ?_, ?_⟩
  · unfold matrix__transpose_square
    rw [if_pos hsq]
  · rw [hsq, hsub]
    exact hl
  · intro a b ha hb
    rw [hsq, hsub, hcells a b ha hb]
    by_cases hmin : min a b < m.height - 1
    · rw [if_pos hmin]
    · rw [if_neg hmin]
      have haeq : a = m.height - 1 := by omega
      have hbeq : b = m.height - 1 := by omega
      rw [haeq, hbeq]

-- ----------------------------------------------------------------------
-- The transpose permutation π(i) = (i * H) mod size, size = H*W - 1.
-- ----------------------------------------------------------------------

theorem tpi_lt (Hv size : Nat) (hsz : 0 < size) (i : Nat) :
    tpi Hv size i < size :=
  Nat.mod_lt _ hsz

theorem tpi_zero (Hv size : Nat) : tpi Hv size 0 = 0 := by
  simp [tpi]

/-- `π` is injective below `size` because `H` is invertible mod `size`
(`H * W = size + 1 ≡ 1`). -/
theorem tpi_inj (Hv W size : Nat) (hs : Hv * W = size + 1) (hsz : 0 < size) :
    ∀ i j, i < size → j < size → tpi Hv size i = tpi Hv size j → i = j := by
  intro i j hi hj he
  unfold tpi at he
  have hmod : i * Hv % size = j * Hv % size := he
  have h2 : i * Hv * W % size = j * Hv * W % size := by
    rw [Nat.mul_mod, hmod, ← Nat.mul_mod]
  rw [Nat.mul_assoc, Nat.mul_assoc, hs] at h2
  have e1 : ∀ k : Nat, k * (size + 1) % size = k % size := by
    intro k
    rw [Nat.mul_add, Nat.mul_one, Nat.mul_comm, Nat.mul_add_mod]
  rw [e1 i, e1 j, Nat.mod_eq_of_lt hi, Nat.mod_eq_of_lt hj] at h2
  exact h2

theorem tpi_maps (Hv W size : Nat) (hs : Hv * W = size + 1) (hsz : 0 < size) :
    ∀ i, 1 ≤ i → i < size → 1 ≤ tpi Hv size i ∧ tpi Hv size i < size := by
  intro i h1 h2
  refine ⟨?_, tpi_lt Hv size hsz i⟩
  by_contra hc
  have h0 : tpi Hv size i = 0 := by omega
  have := tpi_inj Hv W size hs hsz i 0 h2 hsz (by rw [h0, tpi_zero])
  omega

theorem tpi_iter_range (Hv W size : Nat) (hs : Hv * W = size + 1) (hsz : 0 < size) :
    ∀ t i, 1 ≤ i → i < size →
      1 ≤ (tpi Hv size)^[t] i ∧ (tpi Hv size)^[t] i < size := by
  intro t
  induction t with
  | zero => intro i h1 h2; simpa using ⟨h1, h2⟩
  | succ t ih =>
    intro i h1 h2
    rw [Function.iterate_succ_apply']
    obtain ⟨ih1, ih2⟩ := ih i h1 h2
    exact tpi_maps Hv W size hs hsz _ ih1 ih2

theorem tpi_iter_lt (Hv W size : Nat) (hsz : 0 < size) :
    ∀ t i, i < size → (tpi Hv size)^[t] i < size := by
  intro t
  induction t with
  | zero => intro i h; simpa using h
  | succ t ih =>
    intro i h
    rw [Function.iterate_succ_apply']
    exact tpi_lt Hv size hsz _

theorem tpi_iter_cancel (Hv W size : Nat) (hs : Hv * W = size + 1) (hsz : 0 < size) :
    ∀ t i j, i < size → j < size →
      (tpi Hv size)^[t] i = (tpi Hv size)^[t] j → i = j := by
  intro t
  induction t with
  | zero => intro i j _ _ h; simpa using h
  | succ t ih =>
    intro i j hi hj h
    rw [Function.iterate_succ_apply, Function.iterate_succ_apply] at h
    have := ih (tpi Hv size i) (tpi Hv size j) (tpi_lt Hv size hsz i)
      (tpi_lt Hv size hsz j) h
    exact tpi_inj Hv W size hs hsz i j hi hj this

/-- Every index below `size` is a periodic point of `π` (pigeonhole plus
injectivity). -/
theorem tpi_periodic (Hv W size : Nat) (hs : Hv * W = size + 1) (hsz : 0 < size) :
    ∀ i, i < size → ∃ k, 0 < k ∧ (tpi Hv size)^[k] i = i := by
  intro i hi
  have hmaps : ∀ k ∈ Finset.range (size + 1),
      (tpi Hv size)^[k] i ∈ Finset.range size := by
    intro k _
    simp only [Finset.mem_range]
    exact tpi_iter_lt Hv W size hsz k i hi
  obtain ⟨a, ha, b, hb, hne, heq⟩ :=
    Finset.exists_ne_map_eq_of_card_lt_of_maps_to
      (by simp) hmaps
  simp only [Finset.mem_range] at ha hb
  rcases Nat.lt_or_ge a b with hab | hab
  · refine ⟨b - a, by omega, ?_⟩
    have hsplit : (tpi Hv size)^[a] ((tpi Hv size)^[b - a] i) =
        (tpi Hv size)^[a] i := by
      rw [← Function.iterate_add_apply]
      have : a + (b - a) = b := by omega
      rw [this, heq]
    exact tpi_iter_cancel Hv W size hs hsz a _ i
      (tpi_iter_lt Hv W size hsz _ i hi) hi hsplit
  · have hba : b < a := by omega
    refine ⟨a - b, by omega, ?_⟩
    have hsplit : (tpi Hv size)^[b] ((tpi Hv size)^[a - b] i) =
        (tpi Hv size)^[b] i := by
      rw [← Function.iterate_add_apply]
      have : b + (a - b) = a := by omega
      rw [this, heq]
    exact tpi_iter_cancel Hv W size hs hsz b _ i
      (tpi_iter_lt Hv W size hsz _ i hi) hi hsplit

theorem tpi_mem_periodicPts (Hv W size : Nat) (hs : Hv * W = size + 1)
    (hsz : 0 < size) (i : Nat) (hi : i < size) :
    i ∈ Function.periodicPts (tpi Hv size) := by
  obtain ⟨k, hk1, hk2⟩ := tpi_periodic Hv W size hs hsz i hi
  exact Function.mk_mem_periodicPts hk1 hk2

theorem tpi_mp_pos (Hv W size : Nat) (hs : Hv * W = size + 1)
    (hsz : 0 < size) (i : Nat) (hi : i < size) :
    0 < Function.minimalPeriod (tpi Hv size) i :=
  Function.minimalPeriod_pos_of_mem_periodicPts
    (tpi_mem_periodicPts Hv W size hs hsz i hi)

/-- The iterates of a point below `size` are pairwise distinct below the
minimal period. -/
theorem tpi_iter_ne (Hv W size : Nat) (hs : Hv * W = size + 1) (hsz : 0 < size)
    (i : Nat) (hi : i < size) (s t : Nat)
    (hst : s < t) (ht : t < Function.minimalPeriod (tpi Hv size) i) :
    (tpi Hv size)^[s] i ≠ (tpi Hv size)^[t] i := by
  intro he
  have hcancel : (tpi Hv size)^[t - s] i = i := by
    have hsplit : (tpi Hv size)^[s] ((tpi Hv size)^[t - s] i) =
        (tpi Hv size)^[s] i := by
      rw [← Function.iterate_add_apply]
      have : s + (t - s) = t := by omega
      rw [this, ← he]
    exact tpi_iter_cancel Hv W size hs hsz s _ i
      (tpi_iter_lt Hv W size hsz _ i hi) hi hsplit
  exact Function.not_isPeriodicPt_of_pos_of_lt_minimalPeriod
    (n := t - s) (by omega) (by omega) hcancel

theorem orbit_mem_self (f : Nat → Nat) (p cb : Nat) (hp : 0 < p) :
    cb ∈ orbit_upto f p cb := by
  unfold orbit_upto
  rw [Finset.mem_image]
  exact ⟨0, by simpa using hp, by simp⟩

theorem orbit_mem_iff (f : Nat → Nat) (p cb j : Nat) :
    j ∈ orbit_upto f p cb ↔ ∃ s, s < p ∧ f^[s] cb = j := by
  unfold orbit_upto
  rw [Finset.mem_image]
  constructor
  · rintro ⟨s, hs, he⟩
    exact ⟨s, by simpa using hs, he⟩
  · rintro ⟨s, hs, he⟩
    exact ⟨s, by simpa using hs, he⟩

/-- Any iterate of `cb` lies in its orbit (reduce the exponent modulo the
minimal period). -/
theorem orbit_mem_iter (Hv W size : Nat) (hs : Hv * W = size + 1)
    (hsz : 0 < size) (cb : Nat) (hcb : cb < size) (t : Nat) :
    (tpi Hv size)^[t] cb ∈
      orbit_upto (tpi Hv size) (Function.minimalPeriod (tpi Hv size) cb) cb := by
  rw [orbit_mem_iff]
  refine ⟨t % Function.minimalPeriod (tpi Hv size) cb,
    Nat.mod_lt _ (tpi_mp_pos Hv W size hs hsz cb hcb),
    Function.iterate_mod_minimalPeriod_eq⟩

theorem orbit_next (Hv W size : Nat) (hs : Hv * W = size + 1) (hsz : 0 < size)
    (cb j : Nat) (hcb : cb < size)
    (hj : j ∈ orbit_upto (tpi Hv size) (Function.minimalPeriod (tpi Hv size) cb) cb) :
    tpi Hv size j ∈
      orbit_upto (tpi Hv size) (Function.minimalPeriod (tpi Hv size) cb) cb := by
  rw [orbit_mem_iff] at hj
  obtain ⟨s, _, rfl⟩ := hj
  have he : tpi Hv size ((tpi Hv size)^[s] cb) = (tpi Hv size)^[s + 1] cb :=
    (Function.iterate_succ_apply' _ _ _).symm
  rw [he]
  exact orbit_mem_iter Hv W size hs hsz cb hcb (s + 1)

theorem orbit_subset_range (Hv W size : Nat) (hs : Hv * W = size + 1)
    (hsz : 0 < size) (cb : Nat) (hcb1 : 1 ≤ cb) (hcb2 : cb < size) (p : Nat)
    (j : Nat) (hj : j ∈ orbit_upto (tpi Hv size) p cb) :
    1 ≤ j ∧ j < size := by
  rw [orbit_mem_iff] at hj
  obtain ⟨s, _, rfl⟩ := hj
  exact tpi_iter_range Hv W size hs hsz s cb hcb1 hcb2

/-- The orbit has exactly `minimalPeriod` elements. -/
theorem orbit_card (Hv W size : Nat) (hs : Hv * W = size + 1) (hsz : 0 < size)
    (cb : Nat) (hcb : cb < size) :
    (orbit_upto (tpi Hv size) (Function.minimalPeriod (tpi Hv size) cb) cb).card =
      Function.minimalPeriod (tpi Hv size) cb := by
  unfold orbit_upto
  rw [Finset.card_image_of_injOn, Finset.card_range]
  intro s hsm t htm he
  simp only [Finset.coe_range, Set.mem_Iio] at hsm htm
  by_contra hne
  rcases Nat.lt_or_ge s t with hlt | hge
  · exact tpi_iter_ne Hv W size hs hsz cb hcb s t hlt htm he
  · exact tpi_iter_ne Hv W size hs hsz cb hcb t s (by omega) hsm he.symm

/-- A set closed under `π` that misses `cb` misses `cb`'s whole orbit:
following the cycle from any member would eventually put `cb` itself into
the set. -/
theorem orbit_disjoint_of_closed (Hv W size : Nat) (hs : Hv * W = size + 1)
    (hsz : 0 < size) (cb : Nat) (hcb : cb < size) (Done : Finset Nat)
    (hcl : ∀ j ∈ Done, tpi Hv size j ∈ Done) (hcb_out : cb ∉ Done) :
    ∀ j ∈ orbit_upto (tpi Hv size) (Function.minimalPeriod (tpi Hv size) cb) cb,
      j ∉ Done := by
  have hcl_iter : ∀ t j, j ∈ Done → (tpi Hv size)^[t] j ∈ Done := by
    intro t
    induction t with
    | zero => intro j hj; simpa using hj
    | succ t ih =>
      intro j hj
      rw [Function.iterate_succ_apply']
      exact hcl _ (ih j hj)
  intro j hj hmem
  rw [orbit_mem_iff] at hj
  obtain ⟨s, hslt, rfl⟩ := hj
  set mp := Function.minimalPeriod (tpi Hv size) cb with hmp
  have hback : (tpi Hv size)^[mp - s] ((tpi Hv size)^[s] cb) ∈ Done :=
    hcl_iter _ _ hmem
  rw [← Function.iterate_add_apply] at hback
  have hsum : mp - s + s = mp := by omega
  rw [hsum, Function.iterate_minimalPeriod] at hback
  exact hcb_out hback

-- ----------------------------------------------------------------------
-- The two visited-bit stores satisfy the set/test interface.
-- ----------------------------------------------------------------------

theorem has_bit_testBit (n i : Nat) : matrix__has_bit n i = n.testBit i := by
  unfold matrix__has_bit
  rw [Nat.one_shiftLeft, Nat.and_two_pow]
  have hp : 0 < 2 ^ i := pow_pos (by norm_num) i
  cases h : n.testBit i
  · simp [h]
  · simp [h, Nat.pos_iff_ne_zero.mp hp]

theorem set_bit_spec (b i j : Nat) :
    (matrix__has_bit (matrix__set_bit b i) j = true ↔
      (j = i ∨ matrix__has_bit b j = true)) := by
  rw [has_bit_testBit, has_bit_testBit]
  unfold matrix__set_bit
  rw [Nat.one_shiftLeft, Nat.testBit_or]
  cases hb : b.testBit j
  · simp only [hb, Bool.or_false, Bool.false_or]
    rw [Nat.testBit_two_pow]
    constructor
    · intro h
      exact Or.inl (of_decide_eq_true h).symm
    · rintro (rfl | h)
      · exact decide_eq_true rfl
      · exact absurd h (by simp)
  · simp [hb]

theorem has_bit_zero (j : Nat) : matrix__has_bit 0 j = false := by
  rw [has_bit_testBit]
  exact Nat.zero_testBit j

/-- The inline `uint64_t` word of the small-rectangle path satisfies the
bitset interface (in the `Nat` model the identity needs no capacity bound,
and in C every index used is below 64). -/
theorem word_interface (cap : Nat) :
    ∀ (b : Nat) (i j : Nat), i < cap → j < cap →
      (matrix__has_bit (matrix__set_bit b i) j = true ↔
        (j = i ∨ matrix__has_bit b j = true)) :=
  fun b i j _ _ => set_bit_spec b i j

theorem div64_lt (i n : Nat) (h : i < 64 * n) : i / 64 < n :=
  Nat.div_lt_of_lt_mul (by omega)

/-- The `uint64_t` array of the general rectangle path satisfies the bitset
interface for indices below its capacity `64 * n`. -/
theorem wordvec_interface (n : Nat) :
    ∀ (b : wordvec n) (i j : Nat), i < 64 * n → j < 64 * n →
      (wordvec_has (wordvec_set b i) j = true ↔
        (j = i ∨ wordvec_has b j = true)) := by
  intro b i j hi hj
  have hib : i / 64 < b.1.length := by rw [b.2]; exact div64_lt i n hi
  have hhas : ∀ (l : List Nat) (k : Nat),
      matrix__bitset_has l k = matrix__has_bit (l.getD (k / 64) 0) (k % 64) :=
    fun l k => rfl
  have hset : matrix__bitset_set b.1 i =
      b.1.set (i / 64) (matrix__set_bit (b.1.getD (i / 64) 0) (i % 64)) := rfl
  show matrix__bitset_has (matrix__bitset_set b.1 i) j = true ↔
    (j = i ∨ matrix__bitset_has b.1 j = true)
  rw [hhas, hhas, hset]
  by_cases hw : j / 64 = i / 64
  · rw [hw, getD_set_self _ _ _ _ hib]
    have hje : (j = i) ↔ (j % 64 = i % 64) := by
      have hdi := Nat.div_add_mod i 64
      have hdj := Nat.div_add_mod j 64
      omega
    rw [set_bit_spec, hje]
  · rw [getD_set_ne _ _ _ _ _ (fun he => hw he.symm)]
    have hne : j ≠ i := fun he => hw (by rw [he])
    constructor
    · intro h
      exact Or.inr h
    · rintro (rfl | h)
      · exact absurd rfl hne
      · exact h

-- ----------------------------------------------------------------------
-- The cycle-search scan.
-- ----------------------------------------------------------------------

theorem transpose_scan_go_spec {β : Type} (bsHas : β → Nat → Bool)
    (cap size : Nat) (hscap : size ≤ cap) (b : β) (S : Finset Nat)
    (hrepr : bs_repr bsHas cap b S) :
    ∀ rem i0, i0 ≤ size → rem = size - i0 →
      i0 ≤ transpose_scan_go bsHas b rem i0 ∧
      transpose_scan_go bsHas b rem i0 ≤ size ∧
      (transpose_scan_go bsHas b rem i0 < size →
        transpose_scan_go bsHas b rem i0 ∉ S) ∧
      (∀ j, i0 ≤ j → j < transpose_scan_go bsHas b rem i0 → j ∈ S) := by
  intro rem
  induction rem with
  | zero =>
    intro i0 hi0 hrem
    have : i0 = size := by omega
    subst this
    unfold transpose_scan_go
    exact ⟨le_refl _, le_refl _, fun h => absurd h (by omega),
      fun j h1 h2 => absurd h2 (by omega)⟩
  | succ rem ih =>
    intro i0 hi0 hrem
    have hi0lt : i0 < size := by omega
    have hunf : transpose_scan_go bsHas b (rem + 1) i0 =
        if bsHas b i0 then transpose_scan_go bsHas b rem (i0 + 1) else i0 := rfl
    rw [hunf]
    by_cases hhas : bsHas b i0 = true
    · rw [if_pos hhas]
      have hmem : i0 ∈ S := (hrepr i0 (by omega)).mp hhas
      obtain ⟨c1, c2, c3, c4⟩ := ih (i0 + 1) (by omega) (by omega)
      refine ⟨by omega, c2, c3, ?_⟩
      intro j h1 h2
      by_cases hj : j = i0
      · rw [hj]; exact hmem
      · exact c4 j (by omega) h2
    · rw [if_neg hhas]
      refine ⟨le_refl _, by omega, fun _ => ?_, fun j h1 h2 => absurd h2 (by omega)⟩
      intro hmem
      exact hhas ((hrepr i0 (by omega)).mpr hmem)

theorem transpose_scan_spec {β : Type} (bsHas : β → Nat → Bool)
    (cap size : Nat) (hscap : size ≤ cap) (hsz : 1 ≤ size) (b : β)
    (S : Finset Nat) (hrepr : bs_repr bsHas cap b S) :
    1 ≤ transpose_scan bsHas size b 1 ∧
    transpose_scan bsHas size b 1 ≤ size ∧
    (transpose_scan bsHas size b 1 < size → transpose_scan bsHas size b 1 ∉ S) ∧
    (∀ j, 1 ≤ j → j < transpose_scan bsHas size b 1 → j ∈ S) := by
  unfold transpose_scan
  exact transpose_scan_go_spec bsHas cap size hscap b S hrepr (size - 1) 1
    (by omega) rfl

-- ----------------------------------------------------------------------
-- The inner cycle-resolution loop.
-- ----------------------------------------------------------------------

theorem transpose_inner_step_stop {α β : Type} [Inhabited α]
    (bsSet : β → Nat → β) (Hv size fuel : Nat) (buf : List α) (bs : β)
    (cb i : Nat) (temp : α) (h : (i * Hv) % size = cb) :
    transpose_inner_exact bsSet Hv size (fuel + 1) buf bs cb i temp =
      some (buf.set ((i * Hv) % size) temp, bsSet bs i) := by
  simp only [transpose_inner_exact]
  rw [if_pos h]

theorem transpose_inner_step_go {α β : Type} [Inhabited α]
    (bsSet : β → Nat → β) (Hv size fuel : Nat) (buf : List α) (bs : β)
    (cb i : Nat) (temp : α) (h : ¬((i * Hv) % size = cb)) :
    transpose_inner_exact bsSet Hv size (fuel + 1) buf bs cb i temp =
      transpose_inner_exact bsSet Hv size fuel (buf.set ((i * Hv) % size) temp)
        (bsSet bs i) cb ((i * Hv) % size)
        (buf.getD ((i * Hv) % size) default) := by
  simp only [transpose_inner_exact]
  rw [if_neg h]

theorem transpose_inner_wrap_step_stop {α β : Type} [Inhabited α]
    (bsSet : β → Nat → β) (Hv size fuel : Nat) (buf : List α) (bs : β)
    (cb i : Nat) (temp : α) (h : (i * Hv) % USIZE % size = cb) :
    transpose_inner bsSet Hv size (fuel + 1) buf bs cb i temp =
      some (buf.set ((i * Hv) % USIZE % size) temp, bsSet bs i) := by
  simp only [transpose_inner]
  rw [if_pos h]

theorem transpose_inner_wrap_step_go {α β : Type} [Inhabited α]
    (bsSet : β → Nat → β) (Hv size fuel : Nat) (buf : List α) (bs : β)
    (cb i : Nat) (temp : α) (h : ¬((i * Hv) % USIZE % size = cb)) :
    transpose_inner bsSet Hv size (fuel + 1) buf bs cb i temp =
      transpose_inner bsSet Hv size fuel
        (buf.set ((i * Hv) % USIZE % size) temp) (bsSet bs i) cb
        ((i * Hv) % USIZE % size)
        (buf.getD ((i * Hv) % USIZE % size) default) := by
  simp only [transpose_inner]
  rw [if_neg h]

/-- When no reachable `size_t` product can wrap (`size * Hv ≤ 2^64` bounds
`i * Hv` for every in-range `i`), the source-faithful inner loop coincides
with the exact-arithmetic walk. -/
theorem transpose_inner_eq_exact {α β : Type} [Inhabited α]
    (bsSet : β → Nat → β) (Hv size : Nat) (hw : size * Hv ≤ USIZE) :
    ∀ (fuel : Nat) (buf : List α) (bs : β) (cb i : Nat) (temp : α),
      i < size →
      transpose_inner bsSet Hv size fuel buf bs cb i temp =
        transpose_inner_exact bsSet Hv size fuel buf bs cb i temp := by
  intro fuel
  induction fuel with
  | zero => intro buf bs cb i temp hi; rfl
  | succ fuel ih =>
    intro buf bs cb i temp hi
    have hnw : i * Hv < USIZE := by
      rcases Nat.eq_zero_or_pos Hv with h0 | hpos
      · rw [h0, Nat.mul_zero]
        unfold USIZE
        positivity
      · have h1 : (i + 1) * Hv ≤ size * Hv := Nat.mul_le_mul_right Hv hi
        rw [Nat.add_mul, Nat.one_mul] at h1
        omega
    have hmod : (i * Hv) % USIZE = i * Hv := Nat.mod_eq_of_lt hnw
    have hsz : 0 < size := by omega
    by_cases hstop : (i * Hv) % size = cb
    · rw [transpose_inner_wrap_step_stop bsSet Hv size fuel buf bs cb i temp
          (by rw [hmod]; exact hstop),
        transpose_inner_step_stop bsSet Hv size fuel buf bs cb i temp hstop,
        hmod]
    · rw [transpose_inner_wrap_step_go bsSet Hv size fuel buf bs cb i temp
          (by rw [hmod]; exact hstop), hmod,
        transpose_inner_step_go bsSet Hv size fuel buf bs cb i temp hstop]
      exact ih _ _ _ _ _ (Nat.mod_lt _ hsz)

theorem orbit_upto_succ (f : Nat → Nat) (p cb : Nat) :
    orbit_upto f (p + 1) cb = insert (f^[p] cb) (orbit_upto f p cb) := by
  unfold orbit_upto
  rw [Finset.range_succ, Finset.image_insert]

/-- Correctness of the inner `do`-`while` loop in its exact-arithmetic form
(`transpose_inner_exact`; `transpose_inner_eq_exact` carries the result to
the source-faithful loop when no product wraps): starting at step `t` of the
cycle of `cb` (with the first `t` steps already performed), with fuel at
least the remaining number of steps, the loop completes the cycle: each
orbit position `π^[s+1] cb` receives the original value at `π^[s] cb`,
positions outside the orbit are untouched, and exactly the orbit becomes
marked. -/
theorem transpose_inner_spec {α β : Type} [Inhabited α]
    (bsSet : β → Nat → β) (bsHas : β → Nat → Bool) (cap : Nat)
    (hbs : ∀ (b : β) (i j : Nat), i < cap → j < cap →
      (bsHas (bsSet b i) j = true ↔ (j = i ∨ bsHas b j = true)))
    (Hv W size : Nat) (hs : Hv * W = size + 1) (hsz : 0 < size)
    (hcap : size ≤ cap)
    (cb : Nat) (hcb1 : 1 ≤ cb) (hcb2 : cb < size)
    (B0 : List α) (hB0 : size ≤ B0.length) (S0 : Finset Nat) :
    ∀ (fuel t : Nat), t < Function.minimalPeriod (tpi Hv size) cb →
      Function.minimalPeriod (tpi Hv size) cb ≤ t + fuel →
      ∀ (buf : List α) (bs : β),
        buf.length = B0.length →
        bs_repr bsHas cap bs (S0 ∪ orbit_upto (tpi Hv size) t cb) →
        (∀ s, 1 ≤ s → s ≤ t →
          buf.getD ((tpi Hv size)^[s] cb) default =
            B0.getD ((tpi Hv size)^[s - 1] cb) default) →
        (∀ j, (∀ s, 1 ≤ s → s ≤ t → j ≠ (tpi Hv size)^[s] cb) →
          buf.getD j default = B0.getD j default) →
        ∃ fbuf fbs,
          transpose_inner_exact bsSet Hv size fuel buf bs cb
              ((tpi Hv size)^[t] cb)
              (B0.getD ((tpi Hv size)^[t] cb) default) = some (fbuf, fbs) ∧
          fbuf.length = B0.length ∧
          (∀ s, s < Function.minimalPeriod (tpi Hv size) cb →
            fbuf.getD ((tpi Hv size)^[s + 1] cb) default =
              B0.getD ((tpi Hv size)^[s] cb) default) ∧
          (∀ j, j ∉ orbit_upto (tpi Hv size)
              (Function.minimalPeriod (tpi Hv size) cb) cb →
            fbuf.getD j default = B0.getD j default) ∧
          bs_repr bsHas cap fbs
            (S0 ∪ orbit_upto (tpi Hv size)
              (Function.minimalPeriod (tpi Hv size) cb) cb) := by
  intro fuel
  induction fuel with
  | zero =>
    intro t ht hfuel
    omega
  | succ fuel ih =>
    intro t ht hfuel buf bs hlen hrepr hswapped huntouched
    have hit := tpi_iter_range Hv W size hs hsz t cb hcb1 hcb2
    have hit1 := tpi_iter_range Hv W size hs hsz (t + 1) cb hcb1 hcb2
    have hnext : ((tpi Hv size)^[t] cb * Hv) % size = (tpi Hv size)^[t + 1] cb := by
      rw [Function.iterate_succ_apply']
      rfl
    have hmp_pos := tpi_mp_pos Hv W size hs hsz cb hcb2
    by_cases hend : (tpi Hv size)^[t + 1] cb = cb
    · -- the cycle closes: this was the last iteration, t + 1 = mp
      have htmp : t + 1 = Function.minimalPeriod (tpi Hv size) cb := by
        by_contra hne
        have h2 : t + 1 < Function.minimalPeriod (tpi Hv size) cb := by omega
        exact tpi_iter_ne Hv W size hs hsz cb hcb2 0 (t + 1) (by omega) h2
          (by simpa using hend.symm)
      refine ⟨buf.set ((tpi Hv size)^[t + 1] cb)
          (B0.getD ((tpi Hv size)^[t] cb) default), bsSet bs ((tpi Hv size)^[t] cb),
        ?_, ?_, ?_, ?_, ?_⟩
      · rw [transpose_inner_step_stop bsSet Hv size fuel buf bs cb _ _
          (by rw [hnext, hend]), hnext]
      · simp [hlen]
      · intro s hsmp
        have hsle : s ≤ t := by omega
        by_cases hst : s = t
        · subst hst
          rw [hend, getD_set_self]
          omega
        · have hne2 : (tpi Hv size)^[s + 1] cb ≠ (tpi Hv size)^[t + 1] cb := by
            rw [hend]
            intro he
            exact tpi_iter_ne Hv W size hs hsz cb hcb2 0 (s + 1) (by omega)
              (by omega) (by simpa using he.symm)
          rw [getD_set_ne _ _ _ _ _ (Ne.symm hne2)]
          have := hswapped (s + 1) (by omega) (by omega)
          simpa using this
      · intro j hj
        have hjcb : j ≠ cb := by
          intro he
          exact hj (he ▸ orbit_mem_self (tpi Hv size) _ cb hmp_pos)
        rw [hend, getD_set_ne _ _ _ _ _ (Ne.symm hjcb)]
        apply huntouched
        intro s h1 h2 he
        exact hj (he ▸ orbit_mem_iter Hv W size hs hsz cb hcb2 s)
      · intro k hk
        rw [hbs bs _ k (by omega) hk]
        have horb : S0 ∪ orbit_upto (tpi Hv size)
            (Function.minimalPeriod (tpi Hv size) cb) cb =
            insert ((tpi Hv size)^[t] cb)
              (S0 ∪ orbit_upto (tpi Hv size) t cb) := by
          rw [← htmp, orbit_upto_succ]
          ext x
          simp only [Finset.mem_union, Finset.mem_insert]
          tauto
        rw [horb, Finset.mem_insert, hrepr k hk]
    · -- the cycle continues
      have htlt : t + 1 < Function.minimalPeriod (tpi Hv size) cb := by
        rcases Nat.lt_or_ge (t + 1) (Function.minimalPeriod (tpi Hv size) cb) with h | h
        · exact h
        · exfalso
          have : t + 1 = Function.minimalPeriod (tpi Hv size) cb := by omega
          exact hend (this ▸ Function.iterate_minimalPeriod)
      have htemp2 : buf.getD ((tpi Hv size)^[t + 1] cb) default =
          B0.getD ((tpi Hv size)^[t + 1] cb) default := by
        apply huntouched
        intro s h1 h2 he
        exact tpi_iter_ne Hv W size hs hsz cb hcb2 s (t + 1) (by omega) htlt he.symm
      obtain ⟨fbuf, fbs, hrun, hflen, hfswap, hfother, hfrepr⟩ :=
        ih (t + 1) htlt (by omega)
          (buf.set ((tpi Hv size)^[t + 1] cb) (B0.getD ((tpi Hv size)^[t] cb) default))
          (bsSet bs ((tpi Hv size)^[t] cb))
          (by simp [hlen])
          (by
            intro k hk
            rw [hbs bs _ k (by omega) hk, orbit_upto_succ]
            rw [hrepr k hk]
            simp only [Finset.mem_union, Finset.mem_insert]
            tauto)
          (by
            intro s h1 h2
            by_cases hst : s = t + 1
            · subst hst
              rw [getD_set_self]
              · simp
              · omega
            · have hne2 : (tpi Hv size)^[s] cb ≠ (tpi Hv size)^[t + 1] cb := by
                apply tpi_iter_ne Hv W size hs hsz cb hcb2 s (t + 1) (by omega) htlt
              rw [getD_set_ne _ _ _ _ _ (Ne.symm hne2)]
              exact hswapped s h1 (by omega))
          (by
            intro j hj
            rw [getD_set_ne _ _ _ _ _ (Ne.symm (hj (t + 1) (by omega) (by omega)))]
            exact huntouched j (fun s h1 h2 => hj s h1 (by omega)))
      refine ⟨fbuf, fbs, ?_, hflen, hfswap, hfother, hfrepr⟩
      rw [transpose_inner_step_go bsSet Hv size fuel buf bs cb _ _
        (by rw [hnext]; exact hend), hnext, htemp2]
      exact hrun

-- ----------------------------------------------------------------------
-- The outer cycle-search loop.
-- ----------------------------------------------------------------------

theorem transpose_outer_step_lt {α β : Type} [Inhabited α]
    (bsSet : β → Nat → β) (bsHas : β → Nat → Bool) (Hv size innerFuel fuel : Nat)
    (buf : List α) (bs : β) (i : Nat) (h : i < size) :
    transpose_outer_exact bsSet bsHas Hv size innerFuel (fuel + 1) buf bs i =
      (match transpose_inner_exact bsSet Hv size innerFuel buf bs i i
          (buf.getD i default) with
      | none => none
      | some (buf2, bs2) =>
        transpose_outer_exact bsSet bsHas Hv size innerFuel fuel buf2 bs2
          (transpose_scan bsHas size bs2 1)) := by
  simp only [transpose_outer_exact]
  rw [if_pos h]

theorem transpose_outer_step_ge {α β : Type} [Inhabited α]
    (bsSet : β → Nat → β) (bsHas : β → Nat → Bool) (Hv size innerFuel fuel : Nat)
    (buf : List α) (bs : β) (i : Nat) (h : ¬(i < size)) :
    transpose_outer_exact bsSet bsHas Hv size innerFuel (fuel + 1) buf bs i =
      some (buf, bs) := by
  simp only [transpose_outer_exact]
  rw [if_neg h]

theorem transpose_outer_wrap_step_lt {α β : Type} [Inhabited α]
    (bsSet : β → Nat → β) (bsHas : β → Nat → Bool) (Hv size innerFuel fuel : Nat)
    (buf : List α) (bs : β) (i : Nat) (h : i < size) :
    transpose_outer bsSet bsHas Hv size innerFuel (fuel + 1) buf bs i =
      (match transpose_inner bsSet Hv size innerFuel buf bs i i
          (buf.getD i default) with
      | none => none
      | some (buf2, bs2) =>
        transpose_outer bsSet bsHas Hv size innerFuel fuel buf2 bs2
          (transpose_scan bsHas size bs2 1)) := by
  simp only [transpose_outer]
  rw [if_pos h]

/-- Under the no-wrap bound `size * Hv ≤ 2^64` the source-faithful outer
loop coincides with its exact-arithmetic counterpart (every inner call
starts at an index below `size`). -/
theorem transpose_outer_eq_exact {α β : Type} [Inhabited α]
    (bsSet : β → Nat → β) (bsHas : β → Nat → Bool) (Hv size innerFuel : Nat)
    (hw : size * Hv ≤ USIZE) :
    ∀ (fuel : Nat) (buf : List α) (bs : β) (i : Nat),
      transpose_outer bsSet bsHas Hv size innerFuel fuel buf bs i =
        transpose_outer_exact bsSet bsHas Hv size innerFuel fuel buf bs i := by
  intro fuel
  induction fuel with
  | zero => intro buf bs i; rfl
  | succ fuel ih =>
    intro buf bs i
    by_cases hlt : i < size
    · rw [transpose_outer_wrap_step_lt bsSet bsHas Hv size innerFuel fuel
          buf bs i hlt,
        transpose_outer_step_lt bsSet bsHas Hv size innerFuel fuel buf bs i hlt,
        transpose_inner_eq_exact bsSet Hv size hw innerFuel buf bs i i
          (buf.getD i default) hlt]
      cases transpose_inner_exact bsSet Hv size innerFuel buf bs i i
          (buf.getD i default) with
      | none => rfl
      | some p =>
        obtain ⟨buf2, bs2⟩ := p
        exact ih buf2 bs2 (transpose_scan bsHas size bs2 1)
    · show transpose_outer bsSet bsHas Hv size innerFuel (fuel + 1) buf bs i =
        transpose_outer_exact bsSet bsHas Hv size innerFuel (fuel + 1) buf bs i
      rw [transpose_outer_step_ge bsSet bsHas Hv size innerFuel fuel buf bs i hlt]
      simp only [transpose_outer]
      rw [if_neg hlt]

/-- Correctness of the outer loop (exact-arithmetic form): when it has
enough fuel, it resolves every
remaining cycle, producing the buffer in which every index `j ∈ [1, size)`
has had its value moved to `π(j)`, with indices `0` and `≥ size` untouched,
assuming the invariant that the already-`Done` indices form a `π`-closed
subset of `[1, size)` whose values are already in place. -/
theorem transpose_outer_spec {α β : Type} [Inhabited α]
    (bsSet : β → Nat → β) (bsHas : β → Nat → Bool) (cap : Nat)
    (hbs : ∀ (b : β) (i j : Nat), i < cap → j < cap →
      (bsHas (bsSet b i) j = true ↔ (j = i ∨ bsHas b j = true)))
    (Hv W size : Nat) (hs : Hv * W = size + 1) (hsz : 0 < size)
    (hcap : size ≤ cap)
    (B0 : List α) (hB0 : size ≤ B0.length)
    (Sinit : Finset Nat) (hSinit : ∀ j ∈ Sinit, ¬(1 ≤ j ∧ j < size))
    (innerFuel : Nat) (hIF : size ≤ innerFuel) :
    ∀ (fuel : Nat) (Done : Finset Nat) (buf : List α) (bs : β) (i : Nat),
      (Finset.Ico 1 size \ Done).card < fuel →
      Done ⊆ Finset.Ico 1 size →
      (∀ j ∈ Done, tpi Hv size j ∈ Done) →
      buf.length = B0.length →
      bs_repr bsHas cap bs (Sinit ∪ Done) →
      (∀ j ∈ Done, buf.getD (tpi Hv size j) default = B0.getD j default) →
      (∀ j, j ∉ Done → buf.getD j default = B0.getD j default) →
      1 ≤ i →
      (i < size → i ∉ Done) →
      (∀ j, 1 ≤ j → j < i → j ∈ Done) →
      ∃ fbuf fbs,
        transpose_outer_exact bsSet bsHas Hv size innerFuel fuel buf bs i =
          some (fbuf, fbs) ∧
        fbuf.length = B0.length ∧
        (∀ j, 1 ≤ j → j < size →
          fbuf.getD (tpi Hv size j) default = B0.getD j default) ∧
        (∀ j, ¬(1 ≤ j ∧ j < size) →
          fbuf.getD j default = B0.getD j default) := by
  intro fuel
  induction fuel with
  | zero =>
    intro Done buf bs i hcard
    omega
  | succ fuel ih =>
    intro Done buf bs i hcard hsub hclosed hlen hrepr hdone hrest hi1 hiout hibelow
    by_cases hlt : i < size
    · -- start a new cycle at cb = i
      have hcbout : i ∉ Done := hiout hlt
      have hmp_pos := tpi_mp_pos Hv W size hs hsz i hlt
      have hOdisj := orbit_disjoint_of_closed Hv W size hs hsz i hlt Done
        hclosed hcbout
      have hOrange : ∀ j ∈ orbit_upto (tpi Hv size)
          (Function.minimalPeriod (tpi Hv size) i) i, 1 ≤ j ∧ j < size :=
        fun j hj => orbit_subset_range Hv W size hs hsz i hi1 hlt
          (Function.minimalPeriod (tpi Hv size) i) j hj
      have hOsub : orbit_upto (tpi Hv size)
          (Function.minimalPeriod (tpi Hv size) i) i ⊆ Finset.Ico 1 size := by
        intro j hj
        rw [Finset.mem_Ico]
        exact hOrange j hj
      have hmple : Function.minimalPeriod (tpi Hv size) i ≤ size := by
        have h1 := orbit_card Hv W size hs hsz i hlt
        have h2 := Finset.card_le_card hOsub
        rw [h1] at h2
        simp only [Nat.card_Ico] at h2
        omega
      have hrepr0 : bs_repr bsHas cap bs
          ((Sinit ∪ Done) ∪ orbit_upto (tpi Hv size) 0 i) := by
        intro k hk
        rw [hrepr k hk]
        unfold orbit_upto
        simp
      obtain ⟨fbuf, fbs, hrun, hflen, hfswap, hfother, hfrepr⟩ :=
        transpose_inner_spec bsSet bsHas cap hbs Hv W size hs hsz hcap i hi1 hlt
          buf (by omega) (Sinit ∪ Done) innerFuel 0 hmp_pos (by omega)
          buf bs rfl hrepr0
          (fun s h1 h2 => absurd h2 (by omega))
          (fun j _ => rfl)
      have hrun' : transpose_inner_exact bsSet Hv size innerFuel buf bs i i
          (buf.getD i default) = some (fbuf, fbs) := by
        have h0 : (tpi Hv size)^[0] i = i := rfl
        rw [← h0]
        exact hrun
      -- carry the invariant to Done ∪ orbit
      set O := orbit_upto (tpi Hv size) (Function.minimalPeriod (tpi Hv size) i) i
        with hO
      have hcbO : i ∈ O := orbit_mem_self _ _ _ hmp_pos
      have hcard2 : (Finset.Ico 1 size \ (Done ∪ O)).card < fuel := by
        have hssub : Finset.Ico 1 size \ (Done ∪ O) ⊂ Finset.Ico 1 size \ Done := by
          constructor
          · intro x hx
            simp only [Finset.mem_sdiff, Finset.mem_union] at hx ⊢
            tauto
          · intro hcon
            have hcb_in : i ∈ Finset.Ico 1 size \ Done := by
              simp only [Finset.mem_sdiff, Finset.mem_Ico]
              exact ⟨⟨hi1, hlt⟩, hcbout⟩
            have := hcon hcb_in
            simp only [Finset.mem_sdiff, Finset.mem_union] at this
            exact this.2 (Or.inr hcbO)
        have := Finset.card_lt_card hssub
        omega
      have hflen2 : fbuf.length = B0.length := by rw [hflen, hlen]
      have hfrepr2 : bs_repr bsHas cap fbs (Sinit ∪ (Done ∪ O)) := by
        intro k hk
        rw [hfrepr k hk]
        simp only [Finset.mem_union]
        tauto
      have hdone2 : ∀ j ∈ Done ∪ O,
          fbuf.getD (tpi Hv size j) default = B0.getD j default := by
        intro j hj
        rcases Finset.mem_union.mp hj with hjD | hjO
        · have hpj : tpi Hv size j ∈ Done := hclosed j hjD
          have hpjO : tpi Hv size j ∉ O := fun hc => hOdisj _ hc hpj
          rw [hfother _ hpjO]
          exact hdone j hjD
        · obtain ⟨s, hslt, rfl⟩ := (orbit_mem_iff _ _ _ _).mp hjO
          have he : tpi Hv size ((tpi Hv size)^[s] i) = (tpi Hv size)^[s + 1] i :=
            (Function.iterate_succ_apply' _ _ _).symm
          rw [he, hfswap s hslt]
          exact hrest _ (fun hc => hOdisj _ hjO hc)
      have hrest2 : ∀ j, j ∉ Done ∪ O →
          fbuf.getD j default = B0.getD j default := by
        intro j hj
        rw [Finset.mem_union] at hj
        push_neg at hj
        rw [hfother _ hj.2]
        exact hrest j hj.1
      have hclosed2 : ∀ j ∈ Done ∪ O, tpi Hv size j ∈ Done ∪ O := by
        intro j hj
        rcases Finset.mem_union.mp hj with hjD | hjO
        · exact Finset.mem_union_left _ (hclosed j hjD)
        · exact Finset.mem_union_right _ (orbit_next Hv W size hs hsz i _ hlt hjO)
      have hsub2 : Done ∪ O ⊆ Finset.Ico 1 size :=
        Finset.union_subset hsub hOsub
      -- the scan finds the next unresolved index
      obtain ⟨sc1, sc2, sc3, sc4⟩ := transpose_scan_spec bsHas cap size hcap
        (by omega) fbs (Sinit ∪ (Done ∪ O)) hfrepr2
      obtain ⟨gbuf, gbs, hgrun, hglen, hgswap, hgother⟩ :=
        ih (Done ∪ O) fbuf fbs (transpose_scan bsHas size fbs 1) hcard2 hsub2
          hclosed2 hflen2 hfrepr2 hdone2 hrest2 sc1
          (fun hlt2 hmem => (sc3 hlt2) (Finset.mem_union_right _ hmem))
          (fun j hj1 hj2 => by
            have := sc4 j hj1 hj2
            rcases Finset.mem_union.mp this with hI | hD
            · exact absurd ⟨hj1, by omega⟩ (hSinit j hI)
            · exact hD)
      refine ⟨gbuf, gbs, ?_, hglen, hgswap, hgother⟩
      rw [transpose_outer_step_lt bsSet bsHas Hv size innerFuel fuel buf bs i hlt,
        hrun']
      exact hgrun
    · -- all indices resolved: exit
      have hall : ∀ j, 1 ≤ j → j < size → j ∈ Done := by
        intro j h1 h2
        exact hibelow j h1 (by omega)
      refine ⟨buf, bs, transpose_outer_step_ge bsSet bsHas Hv size innerFuel
        fuel buf bs i hlt, hlen, ?_, ?_⟩
      · intro j h1 h2
        exact hdone j (hall j h1 h2)
      · intro j hj
        apply hrest
        intro hc
        have := hsub hc
        rw [Finset.mem_Ico] at this
        exact hj this

-- ----------------------------------------------------------------------
-- The two rectangle transpose paths.
-- ----------------------------------------------------------------------

theorem getD_replicate_zero (n k : Nat) :
    (List.replicate n (0 : Nat)).getD k 0 = 0 := by
  rw [List.getD_eq_getElem?_getD, List.getElem?_replicate]
  split <;> rfl

/-- `matrix__transpose_rectangle`, on shapes where no `size_t` product of
the cycle step can wrap (`(matrix_len - 1) * height ≤ 2^64`), applies the
permutation `j ↦ (j * height) mod size` to every flat index in `[1, size)`
and leaves indices `0` and `size` in place (`size = matrix_len - 1`). -/
theorem transpose_rectangle_spec {α : Type} [Inhabited α] (m : matrix α)
    (hH : 2 ≤ m.height) (hW : 2 ≤ m.width)
    (hlen : m.values.length = matrix_len m) (hbig : 64 < matrix_len m)
    (hmax : matrix_len m < USIZE)
    (hwrap : (matrix_len m - 1) * m.height ≤ USIZE) :
    ∃ buf, matrix__transpose_rectangle m =
        some (matrix.mk m.width m.height buf) ∧
      buf.length = m.values.length ∧
      (∀ j, 1 ≤ j → j < matrix_len m - 1 →
        buf.getD (tpi m.height (matrix_len m - 1) j) default =
          m.values.getD j default) ∧
      (∀ j, ¬(1 ≤ j ∧ j < matrix_len m - 1) →
        buf.getD j default = m.values.getD j default) := by
  have hsub : size_sub_one (matrix_len m) = matrix_len m - 1 :=
    size_sub_one_eq (matrix_len m) (by omega) hmax
  have hs : m.height * m.width = size_sub_one (matrix_len m) + 1 := by
    rw [hsub]
    unfold matrix_len at *
    omega
  have hsz : 0 < size_sub_one (matrix_len m) := by rw [hsub]; omega
  have hcap : size_sub_one (matrix_len m) ≤
      64 * (size_sub_one (matrix_len m) / 64 + 1) := by
    have := Nat.div_add_mod (size_sub_one (matrix_len m)) 64
    have := Nat.mod_lt (size_sub_one (matrix_len m)) (show 0 < 64 by norm_num)
    omega
  have hrepr0 : bs_repr wordvec_has (64 * (size_sub_one (matrix_len m) / 64 + 1))
      (rect_bitset_init (size_sub_one (matrix_len m) / 64 + 1))
      ((∅ : Finset Nat) ∪ (∅ : Finset Nat)) := by
    intro k hk
    have hz : wordvec_has (rect_bitset_init (size_sub_one (matrix_len m) / 64 + 1))
        k = false := by
      show matrix__bitset_has
        (List.replicate (size_sub_one (matrix_len m) / 64 + 1) 0) k = false
      have he : matrix__bitset_has
          (List.replicate (size_sub_one (matrix_len m) / 64 + 1) 0) k =
          matrix__has_bit
            ((List.replicate (size_sub_one (matrix_len m) / 64 + 1) 0).getD
              (k / 64) 0) (k % 64) := rfl
      rw [he, getD_replicate_zero, has_bit_zero]
    rw [hz]
    simp
  obtain ⟨fbuf, fbs, hrun, hflen, hfswap, hfother⟩ :=
    transpose_outer_spec wordvec_set wordvec_has
      (64 * (size_sub_one (matrix_len m) / 64 + 1))
      (wordvec_interface (size_sub_one (matrix_len m) / 64 + 1))
      m.height m.width (size_sub_one (matrix_len m)) hs hsz hcap
      m.values (by omega) ∅ (by simp) (matrix_len m + 1) (by omega)
      (matrix_len m + 1) ∅ m.values
      (rect_bitset_init (size_sub_one (matrix_len m) / 64 + 1)) 1
      (by simp only [Finset.sdiff_empty, Nat.card_Ico]; omega)
      (by simp) (by simp) rfl hrepr0 (by simp) (fun j _ => rfl)
      (by omega) (fun _ => Finset.not_mem_empty 1)
      (fun j h1 h2 => absurd h2 (by omega))
  rw [hsub] at hfswap hfother
  refine ⟨fbuf, ?_, by rw [hflen], hfswap, hfother⟩
  simp only [matrix__transpose_rectangle]
  rw [transpose_outer_eq_exact wordvec_set wordvec_has m.height
      (size_sub_one (matrix_len m)) (matrix_len m + 1)
      (by rw [hsub]; exact hwrap) (matrix_len m + 1) m.values
      (rect_bitset_init (size_sub_one (matrix_len m) / 64 + 1)) 1, hrun]

/-- `matrix__transpose_small_rectangle` on a rectangle of at most 64
elements: the `assert(size < 64)` passes and the same permutation is
applied; on more than 64 elements (or zero elements, where `size` wraps)
the assert fails. -/
theorem transpose_small_rectangle_spec {α : Type} [Inhabited α] (m : matrix α)
    (hH : 2 ≤ m.height) (hW : 2 ≤ m.width)
    (hlen : m.values.length = matrix_len m) (hsmall : matrix_len m ≤ 64) :
    ∃ buf, matrix__transpose_small_rectangle m =
        some (CRes.ok (matrix.mk m.width m.height buf)) ∧
      buf.length = m.values.length ∧
      (∀ j, 1 ≤ j → j < matrix_len m - 1 →
        buf.getD (tpi m.height (matrix_len m - 1) j) default =
          m.values.getD j default) ∧
      (∀ j, ¬(1 ≤ j ∧ j < matrix_len m - 1) →
        buf.getD j default = m.values.getD j default) := by
  have hlen4 : 4 ≤ matrix_len m := by
    unfold matrix_len
    calc (4 : Nat) = 2 * 2 := by norm_num
    _ ≤ m.height * m.width := Nat.mul_le_mul hH hW
  have hsub : size_sub_one (matrix_len m) = matrix_len m - 1 :=
    size_sub_one_eq (matrix_len m) (by omega) (by unfold USIZE; omega)
  have hs : m.height * m.width = size_sub_one (matrix_len m) + 1 := by
    rw [hsub]
    unfold matrix_len at *
    omega
  have hsz : 0 < size_sub_one (matrix_len m) := by rw [hsub]; omega
  have hcap : size_sub_one (matrix_len m) ≤ 64 := by rw [hsub]; omega
  have hassert : size_sub_one (matrix_len m) < 64 := by rw [hsub]; omega
  have hSinit : ∀ j ∈ ({0, size_sub_one (matrix_len m)} : Finset Nat),
      ¬(1 ≤ j ∧ j < size_sub_one (matrix_len m)) := by
    intro j hj
    rcases Finset.mem_insert.mp hj with rfl | hj2
    · omega
    · rw [Finset.mem_singleton] at hj2
      omega
  have hrepr0 : bs_repr matrix__has_bit 64
      (matrix__set_bit (matrix__set_bit 0 0) (size_sub_one (matrix_len m)))
      (({0, size_sub_one (matrix_len m)} : Finset Nat) ∪ (∅ : Finset Nat)) := by
    intro k hk
    rw [set_bit_spec, set_bit_spec]
    simp only [has_bit_zero, Finset.union_empty, Finset.mem_insert,
      Finset.mem_singleton]
    constructor
    · rintro (rfl | rfl | hfalse)
      · exact Or.inr rfl
      · exact Or.inl rfl
      · exact absurd hfalse (by simp)
    · rintro (rfl | rfl)
      · exact Or.inr (Or.inl rfl)
      · exact Or.inl rfl
  obtain ⟨fbuf, fbs, hrun, hflen, hfswap, hfother⟩ :=
    transpose_outer_spec matrix__set_bit matrix__has_bit 64
      (word_interface 64) m.height m.width (size_sub_one (matrix_len m))
      hs hsz hcap m.values (by omega)
      ({0, size_sub_one (matrix_len m)} : Finset Nat) hSinit
      (matrix_len m + 1) (by omega)
      (matrix_len m + 1) ∅ m.values
      (matrix__set_bit (matrix__set_bit 0 0) (size_sub_one (matrix_len m))) 1
      (by simp only [Finset.sdiff_empty, Nat.card_Ico]; omega)
      (by simp) (by simp) rfl hrepr0 (by simp) (fun j _ => rfl)
      (by omega) (fun _ => Finset.not_mem_empty 1)
      (fun j h1 h2 => absurd h2 (by omega))
  rw [hsub] at hfswap hfother
  have hh64 : m.height ≤ 64 := by
    have h1 : m.height * 1 ≤ m.height * m.width :=
      Nat.mul_le_mul_left m.height (by omega)
    rw [Nat.mul_one] at h1
    have h2 : matrix_len m = m.height * m.width := rfl
    omega
  have hwrap : size_sub_one (matrix_len m) * m.height ≤ USIZE := by
    have h3 : size_sub_one (matrix_len m) * m.height ≤ 64 * 64 :=
      Nat.mul_le_mul (by omega) hh64
    have h4 : (64 * 64 : Nat) ≤ USIZE := by norm_num [USIZE]
    omega
  refine ⟨fbuf, ?_, by rw [hflen], hfswap, hfother⟩
  simp only [matrix__transpose_small_rectangle]
  rw [if_pos hassert,
    transpose_outer_eq_exact matrix__set_bit matrix__has_bit m.height
      (size_sub_one (matrix_len m)) (matrix_len m + 1) hwrap
      (matrix_len m + 1) m.values
      (matrix__set_bit (matrix__set_bit 0 0) (size_sub_one (matrix_len m))) 1,
    hrun]

/-- The `matrix_transpose` dispatcher on a rectangle (both dimensions ≥ 2,
distinct) whose `size_t` index products cannot wrap: whichever of the two
cycle-following paths is selected, the result applies the permutation
`j ↦ (j * height) mod size` on `[1, size)` and fixes `0` and `size`. -/
theorem matrix_transpose_rect_spec {α : Type} [Inhabited α] (m : matrix α)
    (hH : 2 ≤ m.height) (hW : 2 ≤ m.width) (hne : m.height ≠ m.width)
    (hok : matrix_ok m)
    (hwrap : (matrix_len m - 1) * m.height ≤ USIZE) :
    ∃ buf, matrix_transpose m =
        some (CRes.ok (matrix.mk m.width m.height buf)) ∧
      buf.length = m.values.length ∧
      (∀ j, 1 ≤ j → j < matrix_len m - 1 →
        buf.getD (tpi m.height (matrix_len m - 1) j) default =
          m.values.getD j default) ∧
      (∀ j, ¬(1 ≤ j ∧ j < matrix_len m - 1) →
        buf.getD j default = m.values.getD j default) := by
  obtain ⟨hlen, hmax⟩ := hok
  have hlen2 : m.values.length = matrix_len m := hlen
  have hnv : ¬(m.width = 1 ∨ m.height = 1) := by omega
  have hns : ¬(m.width = m.height) := fun he => hne he.symm
  unfold matrix_transpose
  rw [if_neg hnv, if_neg hns]
  by_cases h64 : matrix_len m ≤ 64
  · rw [if_pos h64]
    obtain ⟨buf, hrun, h1, h2, h3⟩ :=
      transpose_small_rectangle_spec m hH hW hlen2 h64
    exact ⟨buf, hrun, h1, h2, h3⟩
  · rw [if_neg h64]
    obtain ⟨buf, hrun, h1, h2, h3⟩ :=
      transpose_rectangle_spec m hH hW hlen2 (by omega) hmax hwrap
    refine ⟨buf, ?_, h1, h2, h3⟩
    rw [hrun]
    rfl

theorem corner_iff (h w r c : Nat) (hh : 2 ≤ h) (hw : 2 ≤ w) (hr : r < h)
    (hc : c < w) : (r * w + c = h * w - 1) ↔ (r = h - 1 ∧ c = w - 1) := by
  have hdec : h * w - 1 = (h - 1) * w + (w - 1) := by
    obtain ⟨h2, rfl⟩ : ∃ h2, h = h2 + 1 := ⟨h - 1, by omega⟩
    obtain ⟨w2, rfl⟩ : ∃ w2, w = w2 + 1 := ⟨w - 1, by omega⟩
    have e1 : (h2 + 1) * (w2 + 1) = h2 * (w2 + 1) + (w2 + 1) := by ring
    simp only [Nat.add_sub_cancel]
    omega
  constructor
  · intro he
    rw [hdec] at he
    exact ⟨(flat_index_inj w r c (h - 1) (w - 1) hc (by omega) he).1,
      (flat_index_inj w r c (h - 1) (w - 1) hc (by omega) he).2⟩
  · rintro ⟨rfl, rfl⟩
    exact hdec.symm

/-- For every matrix with `height ≥ 2`, `width ≥ 2` and `height ≠ width`
whose `size_t` index products cannot wrap
(`(height*width - 1) * height ≤ 2^64`), `matrix_transpose` (through
`matrix__transpose_rectangle` or `matrix__transpose_small_rectangle`)
produces the `width × height` matrix with `result[c][r] = original[r][c]`
in the same buffer; equivalently, with `size = height*width - 1`, the final
buffer satisfies `buffer'[(i * height) mod size] = buffer[i]` for
`0 < i < size`, while flat indices `0` and `size` keep their original
values.  On wrap-prone shapes the walk instead hangs, see
the refutation theorems below. -/
theorem matrix_transpose_rectangle_correct {α : Type} [Inhabited α]
    (m : matrix α) (hok : matrix_ok m) (hH : 2 ≤ m.height)
    (hW : 2 ≤ m.width) (hne : m.height ≠ m.width)
    (hwrap : (m.height * m.width - 1) * m.height ≤ USIZE) :
    ∃ buf, matrix_transpose m =
        some (CRes.ok (matrix.mk m.width m.height buf)) ∧
      buf.length = m.height * m.width ∧
      (∀ r c, r < m.height → c < m.width →
        buf.getD (c * m.height + r) default =
          m.values.getD (r * m.width + c) default) ∧
      (∀ i, 0 < i → i < m.height * m.width - 1 →
        buf.getD ((i * m.height) % (m.height * m.width - 1)) default =
          m.values.getD i default) ∧
      buf.getD 0 default = m.values.getD 0 default ∧
      buf.getD (m.height * m.width - 1) default =
        m.values.getD (m.height * m.width - 1) default := by
  obtain ⟨buf, hrun, hblen, hswap, hother⟩ :=
    matrix_transpose_rect_spec m hH hW hne hok hwrap
  have hml : matrix_len m = m.height * m.width := rfl
  refine ⟨buf, hrun, by rw [hblen, hok.1], ?_, ?_, ?_, ?_⟩
  · -- result[c][r] = original[r][c]
    intro r c hr hc
    by_cases hzero : r * m.width + c = 0
    · have hr0 : r = 0 := by
        by_contra hrn
        have : m.width ≤ r * m.width := Nat.le_mul_of_pos_left _ (by omega)
        omega
      have hc0 : c = 0 := by omega
      rw [hr0, hc0]
      simp only [Nat.mul_zero, Nat.zero_mul, Nat.add_zero, Nat.zero_add]
      exact hother 0 (by omega)
    · by_cases hcorner : r = m.height - 1 ∧ c = m.width - 1
      · obtain ⟨hr1, hc1⟩ := hcorner
        have he1 : r * m.width + c = m.height * m.width - 1 :=
          (corner_iff m.height m.width r c hH hW hr hc).mpr ⟨hr1, hc1⟩
        have he2 : c * m.height + r = m.height * m.width - 1 := by
          have := (corner_iff m.width m.height c r hW hH hc hr).mpr ⟨hc1, hr1⟩
          rw [Nat.mul_comm m.width m.height] at this
          exact this
        rw [he1, he2]
        exact hother _ (by omega)
      · -- interior cell: use the permutation form
        have hi_le : r * m.width + c < m.height * m.width :=
          cell_flat_lt m.height m.width r c hr hc
        have hi_ne : r * m.width + c ≠ m.height * m.width - 1 := fun he =>
          hcorner ((corner_iff m.height m.width r c hH hW hr hc).mp he)
        have hx_le : c * m.height + r < m.width * m.height :=
          cell_flat_lt m.width m.height c r hc hr
        have hx_ne : c * m.height + r ≠ m.height * m.width - 1 := fun he => by
          rw [← Nat.mul_comm m.width m.height] at he
          exact hcorner (And.symm
            ((corner_iff m.width m.height c r hW hH hc hr).mp he))
        have hmod : ((r * m.width + c) * m.height) %
            (m.height * m.width - 1) = c * m.height + r := by
          have hexp : (r * m.width + c) * m.height =
              (m.height * m.width - 1) * r + (c * m.height + r) := by
            have e1 : (r * m.width + c) * m.height =
                r * (m.width * m.height) + c * m.height := by ring
            have e2 : r * (m.width * m.height) =
                r * (m.width * m.height - 1) + r := by
              have : 1 ≤ m.width * m.height := by
                have := cell_flat_lt m.width m.height c r hc hr
                omega
              have e3 : r * (m.width * m.height) =
                  r * (m.width * m.height - 1 + 1) := by
                congr 1
                omega
              rw [e3, Nat.mul_add, Nat.mul_one]
            rw [e1, e2, Nat.mul_comm m.width m.height]
            ring
          rw [hexp, Nat.mul_add_mod]
          apply Nat.mod_eq_of_lt
          have hcomm : m.height * m.width = m.width * m.height :=
            Nat.mul_comm _ _
          omega
        have := hswap (r * m.width + c) (by omega) (by rw [hml]; omega)
        rw [show tpi m.height (matrix_len m - 1) (r * m.width + c) =
            ((r * m.width + c) * m.height) % (m.height * m.width - 1)
          from rfl, hmod] at this
        exact this
  · intro i h1 h2
    have := hswap i (by omega) (by rw [hml]; omega)
    rw [show tpi m.height (matrix_len m - 1) i =
        (i * m.height) % (m.height * m.width - 1) from rfl] at this
    exact this
  · exact hother 0 (by omega)
  · exact hother _ (by rw [hml]; omega)

-- ----------------------------------------------------------------------
-- C2: transpose involution.
-- ----------------------------------------------------------------------

/-- Applying the two transpose permutations in succession is the identity:
`((p * H) mod size) * W ≡ p * (H * W) = p * (size + 1) ≡ p (mod size)`. -/
theorem tpi_involution (Hv W size p : Nat) (hs : Hv * W = size + 1)
    (hp : p < size) : tpi W size (tpi Hv size p) = p := by
  unfold tpi
  rw [Nat.mod_mul_mod, Nat.mul_assoc, hs, Nat.mul_add, Nat.mul_one,
    Nat.mul_comm, Nat.mul_add_mod, Nat.mod_eq_of_lt hp]

theorem flat_decomp (w p : Nat) (hw : 0 < w) :
    p = (p / w) * w + p % w := by
  have h1 := Nat.div_add_mod p w
  have h2 : w * (p / w) = (p / w) * w := Nat.mul_comm _ _
  omega

/-- C2 counterexample: on the `0 × 2` matrix (a valid matrix with an empty
buffer), the first `matrix_transpose` aborts, so applying it twice can
never restore the matrix. -/
theorem matrix_transpose_involution_fails :
    matrix_transpose (matrix.mk 0 2 ([] : List ℚ)) = some CRes.abort ∧
    ¬∃ m1 m2 : matrix ℚ,
      matrix_transpose (matrix.mk 0 2 ([] : List ℚ)) = some (CRes.ok m1) ∧
      matrix_transpose m1 = some (CRes.ok m2) ∧
      m2.height = 0 ∧ m2.width = 2 ∧ m2.values = [] := by
  have h := (zero_rect_aborts (matrix.mk 0 2 ([] : List ℚ))
    (Or.inl ⟨rfl, by norm_num⟩)).2
  refine ⟨h, ?_⟩
  rintro ⟨m1, m2, hc, -⟩
  rw [h] at hc
  simp at hc

/-- C2 amended: for every valid matrix whose dimensions are at least 1 and
representable in `int` (below `2^31`), and whose element count is at most
`2^32` (so no `size_t` index product of the cycle-following walk can wrap),
applying `matrix_transpose` twice restores the height, the width, and every
cell, across all four dispatch paths. -/
theorem matrix_transpose_involution {α : Type} [Inhabited α] (m : matrix α)
    (hok : matrix_ok m) (hh1 : 1 ≤ m.height) (hw1 : 1 ≤ m.width)
    (hh31 : m.height < 2 ^ 31) (hw31 : m.width < 2 ^ 31)
    (hlen32 : matrix_len m ≤ 2 ^ 32) :
    ∃ m1 m2, matrix_transpose m = some (CRes.ok m1) ∧
      matrix_transpose m1 = some (CRes.ok m2) ∧
      m2.height = m.height ∧ m2.width = m.width ∧ m2.values = m.values := by
  by_cases hv : m.width = 1 ∨ m.height = 1
  · -- single row/column: the buffer never moves, the fields swap twice
    have h1 := matrix_transpose_vector_spec m hv hh31
    refine ⟨matrix.mk m.width m.height m.values,
      matrix.mk m.height m.width m.values, h1, ?_, rfl, rfl, rfl⟩
    have h2 := matrix_transpose_vector_spec (matrix.mk m.width m.height m.values)
      (by rcases hv with h | h
          · exact Or.inr h
          · exact Or.inl h) hw31
    exact h2
  · by_cases hsq : m.width = m.height
    · -- square: each off-diagonal pair is exchanged twice
      have hh2 : 2 ≤ m.height := by omega
      have hml : matrix_len m < USIZE := hok.2
      obtain ⟨buf, hrun1, hlen1, hcells1⟩ :=
        matrix_transpose_square_spec m hsq hh1 hok.1 hml
      have hd1 : matrix_transpose m = some (matrix__transpose_square m) := by
        unfold matrix_transpose
        rw [if_neg hv, if_pos hsq]
      rw [hrun1] at hd1
      have hlen1' : buf.length = matrix_len (matrix.mk m.height m.width buf) := by
        show buf.length = m.height * m.width
        rw [hlen1, hok.1]
      obtain ⟨buf2, hrun2, hlen2, hcells2⟩ :=
        matrix_transpose_square_spec (matrix.mk m.height m.width buf)
          hsq hh1 hlen1' hml
      have hd2 : matrix_transpose (matrix.mk m.height m.width buf) =
          some (matrix__transpose_square (matrix.mk m.height m.width buf)) := by
        unfold matrix_transpose
        rw [if_neg hv, if_pos hsq]
      rw [hrun2] at hd2
      refine ⟨matrix.mk m.height m.width buf, matrix.mk m.height m.width buf2,
        hd1, hd2, rfl, rfl, ?_⟩
      apply getD_eq_of_lists _ _ default (by rw [hlen2, hlen1])
      intro i hi
      have hilen : i < m.height * m.height := by
        rw [hlen2, hlen1, hok.1, hsq] at hi
        exact hi
      have hh0 : 0 < m.height := by omega
      have ha : i / m.height < m.height := Nat.div_lt_of_lt_mul hilen
      have hb : i % m.height < m.height := Nat.mod_lt _ hh0
      have hdec := flat_decomp m.height i hh0
      rw [hdec]
      rw [hcells2 (i / m.height) (i % m.height) ha hb,
        hcells1 (i % m.height) (i / m.height) hb ha]
    · -- rectangle: compose the two index permutations
      have hh2 : 2 ≤ m.height := by omega
      have hw2 : 2 ≤ m.width := by omega
      have hne : m.height ≠ m.width := fun he => hsq he.symm
      have hml' : matrix_len m = m.height * m.width := rfl
      have h6 : (2 ^ 32 : Nat) * 2 ^ 31 ≤ USIZE := by norm_num [USIZE]
      have hwrap1 : (matrix_len m - 1) * m.height ≤ USIZE := by
        have h5 := Nat.mul_le_mul (show matrix_len m - 1 ≤ 2 ^ 32 by omega)
          (show m.height ≤ 2 ^ 31 by omega)
        omega
      have hwrap2 : (m.width * m.height - 1) * m.width ≤ USIZE := by
        have hcomm' : m.width * m.height = m.height * m.width := Nat.mul_comm _ _
        have h5 := Nat.mul_le_mul (show m.width * m.height - 1 ≤ 2 ^ 32 by omega)
          (show m.width ≤ 2 ^ 31 by omega)
        omega
      obtain ⟨buf, hrun1, hlen1, hswap1, hother1⟩ :=
        matrix_transpose_rect_spec m hh2 hw2 hne hok hwrap1
      have hcomm : m.height * m.width = m.width * m.height := Nat.mul_comm _ _
      have hok1 : matrix_ok (matrix.mk m.width m.height buf) := by
        constructor
        · show buf.length = m.width * m.height
          rw [hlen1, hok.1, hcomm]
        · show m.width * m.height < USIZE
          have := hok.2
          omega
      obtain ⟨buf2, hrun2, hlen2, hswap2, hother2⟩ :=
        matrix_transpose_rect_spec (matrix.mk m.width m.height buf)
          hw2 hh2 (Ne.symm hne) hok1 hwrap2
      have hml1 : matrix_len (matrix.mk m.width m.height buf) = matrix_len m := by
        show m.width * m.height = m.height * m.width
        omega
      rw [hml1] at hswap2 hother2
      refine ⟨matrix.mk m.width m.height buf, matrix.mk m.height m.width buf2,
        hrun1, hrun2, rfl, rfl, ?_⟩
      apply getD_eq_of_lists _ _ default (by rw [hlen2, hlen1])
      intro p hp
      have hplen : p < matrix_len m := by
        rw [hlen2, hlen1, hok.1] at hp
        exact hp
      have hlen6 : 4 ≤ matrix_len m := by
        unfold matrix_len
        calc (4 : Nat) = 2 * 2 := by norm_num
        _ ≤ m.height * m.width := Nat.mul_le_mul hh2 hw2
      have hs1 : m.height * m.width = (matrix_len m - 1) + 1 := by
        unfold matrix_len at *
        omega
      by_cases hp0 : p = 0
      · rw [hp0, hother2 0 (by omega), hother1 0 (by omega)]
      · by_cases hps : p = matrix_len m - 1
        · rw [hps, hother2 _ (by omega), hother1 _ (by omega)]
        · have hpin : 1 ≤ p ∧ p < matrix_len m - 1 := ⟨by omega, by omega⟩
          obtain ⟨hj1, hj2⟩ := tpi_maps m.height m.width (matrix_len m - 1)
            hs1 (by omega) p hpin.1 hpin.2
          have hinv : tpi m.width (matrix_len m - 1)
              (tpi m.height (matrix_len m - 1) p) = p :=
            tpi_involution m.height m.width (matrix_len m - 1) p hs1 hpin.2
          have h2 := hswap2 (tpi m.height (matrix_len m - 1) p) hj1 hj2
          rw [show tpi (matrix.mk m.width m.height buf).height (matrix_len m - 1)
              (tpi m.height (matrix_len m - 1) p) =
              tpi m.width (matrix_len m - 1)
                (tpi m.height (matrix_len m - 1) p) from rfl, hinv] at h2
          rw [h2]
          exact hswap1 p hpin.1 hpin.2

/-- The no-wrap correctness theorem instantiated at the spec's concrete
`2 × 3` matrix `[[1,2,3],[4,5,6]]`. -/
theorem matrix_transpose_rectangle_correct_witness :
    matrix_ok (matrix.mk 2 3 [(1 : ℚ), 2, 3, 4, 5, 6]) ∧
    (∃ buf, matrix_transpose (matrix.mk 2 3 [(1 : ℚ), 2, 3, 4, 5, 6]) =
        some (CRes.ok (matrix.mk 3 2 buf)) ∧
      buf.length = 2 * 3 ∧
      (∀ r c, r < 2 → c < 3 →
        buf.getD (c * 2 + r) default =
          (matrix.mk 2 3 [(1 : ℚ), 2, 3, 4, 5, 6]).values.getD (r * 3 + c) default) ∧
      (∀ i, 0 < i → i < 2 * 3 - 1 →
        buf.getD ((i * 2) % (2 * 3 - 1)) default =
          (matrix.mk 2 3 [(1 : ℚ), 2, 3, 4, 5, 6]).values.getD i default) ∧
      buf.getD 0 default =
        (matrix.mk 2 3 [(1 : ℚ), 2, 3, 4, 5, 6]).values.getD 0 default ∧
      buf.getD (2 * 3 - 1) default =
        (matrix.mk 2 3 [(1 : ℚ), 2, 3, 4, 5, 6]).values.getD (2 * 3 - 1) default) :=
  ⟨⟨rfl, by norm_num [USIZE]⟩,
    matrix_transpose_rectangle_correct (matrix.mk 2 3 [(1 : ℚ), 2, 3, 4, 5, 6])
      ⟨rfl, by norm_num [USIZE]⟩ (by norm_num) (by norm_num) (by norm_num)
      (by norm_num [USIZE])⟩

/-- Witness for the amended C2 at the concrete `2 × 3` matrix. -/
theorem matrix_transpose_involution_witness :
    matrix_ok (matrix.mk 2 3 [(1 : ℚ), 2, 3, 4, 5, 6]) ∧
    (1 : Nat) ≤ 2 ∧ (1 : Nat) ≤ 3 ∧ (2 : Nat) < 2 ^ 31 ∧ (3 : Nat) < 2 ^ 31 ∧
    matrix_len (matrix.mk 2 3 [(1 : ℚ), 2, 3, 4, 5, 6]) ≤ 2 ^ 32 ∧
    (∃ m1 m2, matrix_transpose (matrix.mk 2 3 [(1 : ℚ), 2, 3, 4, 5, 6]) =
        some (CRes.ok m1) ∧
      matrix_transpose m1 = some (CRes.ok m2) ∧
      m2.height = 2 ∧ m2.width = 3 ∧ m2.values = [(1 : ℚ), 2, 3, 4, 5, 6]) :=
  ⟨⟨rfl, by norm_num [USIZE]⟩, by norm_num, by norm_num, by norm_num, by norm_num,
    by norm_num [matrix_len],
    matrix_transpose_involution (matrix.mk 2 3 [(1 : ℚ), 2, 3, 4, 5, 6])
      ⟨rfl, by norm_num [USIZE]⟩ (by norm_num) (by norm_num) (by norm_num)
      (by norm_num) (by norm_num [matrix_len])⟩

-- ----------------------------------------------------------------------
-- C6: totality of matrix_transpose.
-- ----------------------------------------------------------------------

/-- For every valid matrix whose element count is at most `2^32` (so the
`size_t` index products of the cycle step cannot wrap), `matrix_transpose`
completes: the vector and square paths are plain bounded loops, and the
nested cycle-following loops of both rectangular paths finish within fuel
`matrix_len m + 1` because the permutation partitions `[1, size)` into
cycles, each index being marked exactly once (an abort on a failed assert
is also a completed run).  Without the element-count bound this is false:
see the refutation below. -/
theorem matrix_transpose_total {α : Type} [Inhabited α] (m : matrix α)
    (hok : matrix_ok m) (hlen32 : matrix_len m ≤ 2 ^ 32) :
    ∃ res, matrix_transpose m = some res := by
  by_cases hv : m.width = 1 ∨ m.height = 1
  · exact ⟨matrix__transpose_single_col_or_row m, by
      unfold matrix_transpose
      rw [if_pos hv]⟩
  · by_cases hsq : m.width = m.height
    · exact ⟨matrix__transpose_square m, by
        unfold matrix_transpose
        rw [if_neg hv, if_pos hsq]⟩
    · by_cases hz : m.height = 0 ∨ m.width = 0
      · have hshape : (m.height = 0 ∧ 2 ≤ m.width) ∨
            (m.width = 0 ∧ 2 ≤ m.height) := by
          rcases hz with h0 | h0
          · exact Or.inl ⟨h0, by omega⟩
          · exact Or.inr ⟨h0, by omega⟩
        exact ⟨CRes.abort, (zero_rect_aborts m hshape).2⟩
      · have hh2 : 2 ≤ m.height := by omega
        have hw2 : 2 ≤ m.width := by omega
        have hml' : matrix_len m = m.height * m.width := rfl
        have hhle : m.height ≤ matrix_len m := by
          have h1 : m.height * 1 ≤ m.height * m.width :=
            Nat.mul_le_mul_left m.height (by omega)
          rw [Nat.mul_one] at h1
          omega
        have hwrap : (matrix_len m - 1) * m.height ≤ USIZE := by
          have h5 := Nat.mul_le_mul (show matrix_len m - 1 ≤ 2 ^ 32 by omega)
            (show m.height ≤ 2 ^ 32 by omega)
          have h6 : (2 ^ 32 : Nat) * 2 ^ 32 ≤ USIZE := by norm_num [USIZE]
          omega
        obtain ⟨buf, hrun, -, -, -⟩ :=
          matrix_transpose_rect_spec m hh2 hw2 (fun he => hsq he.symm) hok hwrap
        exact ⟨CRes.ok (matrix.mk m.width m.height buf), hrun⟩

/-- The no-wrap totality theorem instantiated at the `2 × 3` rectangle. -/
theorem matrix_transpose_total_witness :
    matrix_ok (matrix.mk 2 3 [(1 : ℚ), 2, 3, 4, 5, 6]) ∧
    matrix_len (matrix.mk 2 3 [(1 : ℚ), 2, 3, 4, 5, 6]) ≤ 2 ^ 32 ∧
    (∃ res, matrix_transpose (matrix.mk 2 3 [(1 : ℚ), 2, 3, 4, 5, 6]) =
      some res) :=
  ⟨⟨rfl, by norm_num [USIZE]⟩, by norm_num [matrix_len],
    matrix_transpose_total (matrix.mk 2 3 [(1 : ℚ), 2, 3, 4, 5, 6])
      ⟨rfl, by norm_num [USIZE]⟩ (by norm_num [matrix_len])⟩

-- ----------------------------------------------------------------------
-- The size_t overflow in the cycle step: on large valid rectangles the
-- wrapped product sends the walk to index 0, where it loops forever.
-- ----------------------------------------------------------------------

/-- Once the walk of the `2^30 × (2^31 - 1)` rectangle reaches flat index
`0`, it stays there: `(0 * 2^30) % 2^64 % size = 0 ≠ cycle_begin = 1`, so
the inner `do`-`while` never exits, whatever the remaining fuel. -/
theorem wrap_inner_stuck {α β : Type} [Inhabited α] (bsSet : β → Nat → β) :
    ∀ (fuel : Nat) (buf : List α) (bs : β) (temp : α),
      transpose_inner bsSet (2 ^ 30) (2 ^ 61 - 2 ^ 30 - 1) fuel buf bs 1 0
        temp = none := by
  intro fuel
  induction fuel with
  | zero => intro buf bs temp; rfl
  | succ fuel ih =>
    intro buf bs temp
    have hnext : (0 * 2 ^ 30) % USIZE % (2 ^ 61 - 2 ^ 30 - 1) = 0 := by
      simp
    rw [transpose_inner_wrap_step_go bsSet (2 ^ 30) (2 ^ 61 - 2 ^ 30 - 1) fuel
      buf bs 1 0 temp (by rw [hnext]; omega), hnext]
    exact ih _ _ _

/-- At `i = 2^60` the `size_t` product `2^60 * 2^30 = 2^90` wraps to `0`
modulo `2^64`, so the walk jumps to index `0` and never terminates. -/
theorem wrap_inner_from_p60 {α β : Type} [Inhabited α] (bsSet : β → Nat → β) :
    ∀ (fuel : Nat) (buf : List α) (bs : β) (temp : α),
      transpose_inner bsSet (2 ^ 30) (2 ^ 61 - 2 ^ 30 - 1) fuel buf bs 1
        (2 ^ 60) temp = none := by
  intro fuel buf bs temp
  cases fuel with
  | zero => rfl
  | succ fuel =>
    have hnext : (2 ^ 60 * 2 ^ 30) % USIZE % (2 ^ 61 - 2 ^ 30 - 1) = 0 := by
      norm_num [USIZE]
    rw [transpose_inner_wrap_step_go bsSet (2 ^ 30) (2 ^ 61 - 2 ^ 30 - 1) fuel
      buf bs 1 (2 ^ 60) temp (by rw [hnext]; omega), hnext]
    exact wrap_inner_stuck bsSet fuel _ _ _

/-- From `i = 2^30` the walk moves to `2^60` (no wrap yet) and then
diverges. -/
theorem wrap_inner_from_p30 {α β : Type} [Inhabited α] (bsSet : β → Nat → β) :
    ∀ (fuel : Nat) (buf : List α) (bs : β) (temp : α),
      transpose_inner bsSet (2 ^ 30) (2 ^ 61 - 2 ^ 30 - 1) fuel buf bs 1
        (2 ^ 30) temp = none := by
  intro fuel buf bs temp
  cases fuel with
  | zero => rfl
  | succ fuel =>
    have hnext : (2 ^ 30 * 2 ^ 30) % USIZE % (2 ^ 61 - 2 ^ 30 - 1) = 2 ^ 60 := by
      norm_num [USIZE]
    rw [transpose_inner_wrap_step_go bsSet (2 ^ 30) (2 ^ 61 - 2 ^ 30 - 1) fuel
      buf bs 1 (2 ^ 30) temp (by rw [hnext]; norm_num), hnext]
    exact wrap_inner_from_p60 bsSet fuel _ _ _

/-- Starting the first cycle of the `2^30 × (2^31 - 1)` rectangle at
`cycle_begin = 1`, the walk visits `2^30` and `2^60`; there the wrapped
product sends it to `0`, where it loops forever.  The inner loop therefore
returns fuel-exhaustion for every fuel. -/
theorem wrap_inner_from_one {α β : Type} [Inhabited α] (bsSet : β → Nat → β) :
    ∀ (fuel : Nat) (buf : List α) (bs : β) (temp : α),
      transpose_inner bsSet (2 ^ 30) (2 ^ 61 - 2 ^ 30 - 1) fuel buf bs 1 1
        temp = none := by
  intro fuel buf bs temp
  cases fuel with
  | zero => rfl
  | succ fuel =>
    have hnext : (1 * 2 ^ 30) % USIZE % (2 ^ 61 - 2 ^ 30 - 1) = 2 ^ 30 := by
      norm_num [USIZE]
    rw [transpose_inner_wrap_step_go bsSet (2 ^ 30) (2 ^ 61 - 2 ^ 30 - 1) fuel
      buf bs 1 1 temp (by rw [hnext]; norm_num), hnext]
    exact wrap_inner_from_p30 bsSet fuel _ _ _

/-- The outer loop started at `i = 1` with `Hv = 2^30` and
`size = 2^30 * (2^31 - 1) - 1` immediately enters the diverging cycle walk,
so it returns fuel-exhaustion for every fuel (the equation hypotheses let
the lemma apply to any syntactic spelling of the two constants). -/
theorem wrap_outer_none {α β : Type} [Inhabited α] (bsSet : β → Nat → β)
    (bsHas : β → Nat → Bool) (Hv size innerFuel fuel : Nat)
    (buf : List α) (bs : β)
    (hHv : Hv = 2 ^ 30) (hsize : size = 2 ^ 61 - 2 ^ 30 - 1) :
    transpose_outer bsSet bsHas Hv size innerFuel fuel buf bs 1 = none := by
  subst hHv
  subst hsize
  cases fuel with
  | zero => rfl
  | succ fuel =>
    rw [transpose_outer_wrap_step_lt bsSet bsHas (2 ^ 30) (2 ^ 61 - 2 ^ 30 - 1)
      innerFuel fuel buf bs 1 (by norm_num),
      wrap_inner_from_one bsSet innerFuel buf bs (buf.getD 1 default)]

/-- `matrix__transpose_rectangle` on any `2^30 × (2^31 - 1)` matrix: the
outer loop diverges, so the fueled run reports fuel-exhaustion
(`none`). -/
theorem wrap_rect_none {α : Type} [Inhabited α] (m : matrix α)
    (hH : m.height = 2 ^ 30) (hW : m.width = 2 ^ 31 - 1) :
    matrix__transpose_rectangle m = none := by
  have hsize : size_sub_one (matrix_len m) = 2 ^ 61 - 2 ^ 30 - 1 := by
    have hml : matrix_len m = 2 ^ 30 * (2 ^ 31 - 1) := by
      show m.height * m.width = _
      rw [hH, hW]
    rw [hml]
    norm_num [size_sub_one]
  simp only [matrix__transpose_rectangle]
  rw [wrap_outer_none wordvec_set wordvec_has m.height
    (size_sub_one (matrix_len m)) (matrix_len m + 1) (matrix_len m + 1)
    m.values (rect_bitset_init (size_sub_one (matrix_len m) / 64 + 1)) hH hsize]

/-- `matrix_transpose` on any `2^30 × (2^31 - 1)` buffer: the dispatcher
selects the large-rectangle path, whose cycle walk never terminates, so the
fueled model returns `none` (fuel exhausted). -/
theorem wrap_transpose_none (buf : List ℚ) :
    matrix_transpose (matrix.mk (2 ^ 30) (2 ^ 31 - 1) buf) = none := by
  have hrect : matrix__transpose_rectangle (matrix.mk (2 ^ 30) (2 ^ 31 - 1) buf)
      = none :=
    wrap_rect_none (matrix.mk (2 ^ 30) (2 ^ 31 - 1) buf) rfl rfl
  unfold matrix_transpose
  rw [if_neg (show ¬((matrix.mk (2 ^ 30) (2 ^ 31 - 1) buf).width = 1 ∨
      (matrix.mk (2 ^ 30) (2 ^ 31 - 1) buf).height = 1) by norm_num)]
  rw [if_neg (show ¬((matrix.mk (2 ^ 30) (2 ^ 31 - 1) buf).width =
      (matrix.mk (2 ^ 30) (2 ^ 31 - 1) buf).height) by norm_num)]
  rw [if_neg (show ¬(matrix_len (matrix.mk (2 ^ 30) (2 ^ 31 - 1) buf) ≤ 64) by
      norm_num [matrix_len])]
  rw [hrect]
  rfl

/-- C1 refuted as stated: on the valid `2^30 × (2^31 - 1)` matrix the
large-rectangle path does not apply the claimed permutation — it does not
even terminate.  The `size_t` product of the cycle step
`next = (i * m->height) % size` wraps modulo `2^64`: from `cycle_begin = 1`
the walk visits `2^30` and `2^60`, at `i = 2^60` the product `2^90` wraps
to `0`, and from `0` the walk never returns to `cycle_begin`, so the outer
loop exhausts every fuel and `matrix_transpose` never produces the
transposed matrix (the shape is in scope: `matrix_ok` holds for the
matching buffer). -/
theorem matrix_transpose_rectangle_wrap_hangs :
    (∀ (innerFuel fuel : Nat) (buf : List ℚ)
        (bs : wordvec ((2 ^ 61 - 2 ^ 30 - 1) / 64 + 1)),
      transpose_outer wordvec_set wordvec_has (2 ^ 30) (2 ^ 61 - 2 ^ 30 - 1)
        innerFuel fuel buf bs 1 = none) ∧
    (∀ buf : List ℚ,
      matrix_transpose (matrix.mk (2 ^ 30) (2 ^ 31 - 1) buf) = none) ∧
    matrix_ok (matrix.mk (2 ^ 30) (2 ^ 31 - 1)
      (List.replicate (2 ^ 30 * (2 ^ 31 - 1)) (0 : ℚ))) :=
  ⟨fun innerFuel fuel buf bs =>
      wrap_outer_none wordvec_set wordvec_has _ _ innerFuel fuel buf bs rfl rfl,
    fun buf => wrap_transpose_none buf,
    ⟨List.length_replicate _ _, by norm_num [USIZE]⟩⟩

/-- C6 refuted: `matrix_transpose` does not complete on every valid matrix.
The `2^30 × (2^31 - 1)` matrix is valid (`matrix_ok` holds: the buffer has
`height * width` elements and the element count is far below `2^64`), it is
dispatched to the large-rectangle path, and there the wrapped `size_t`
product of the cycle step traps the inner `do`-`while` at index `0`: the
loop never exits for any fuel, so the fueled model returns `none` instead
of a completed run. -/
theorem matrix_transpose_wrap_not_total :
    matrix_ok (matrix.mk (2 ^ 30) (2 ^ 31 - 1)
      (List.replicate (2 ^ 30 * (2 ^ 31 - 1)) (0 : ℚ))) ∧
    matrix_transpose (matrix.mk (2 ^ 30) (2 ^ 31 - 1)
      (List.replicate (2 ^ 30 * (2 ^ 31 - 1)) (0 : ℚ))) = none ∧
    (∀ (β : Type) (bsSet : β → Nat → β) (fuel : Nat) (buf : List ℚ)
        (bs : β) (temp : ℚ),
      transpose_inner bsSet (2 ^ 30) (2 ^ 61 - 2 ^ 30 - 1) fuel buf bs 1 1
        temp = none) :=
  ⟨⟨List.length_replicate _ _, by norm_num [USIZE]⟩,
    wrap_transpose_none _,
    fun β bsSet fuel buf bs temp => wrap_inner_from_one bsSet fuel buf bs temp⟩
